import Mathlib

/-!
Verification of the coin-selection engine (`bdk_core/src/coin_select.rs` and its
variant `bdk_core/src/coin_select/coin_selector.rs`) and of the keychain
script-pubkey index (`bdk_chain/src/keychain.rs`,
`bdk_chain/src/keychain/keychain_txout_index.rs`) of the `bdk_core_staging`
repository, against its natural-language specification.

Modelling conventions:
* machine integers (`u64`, `u32`, `usize`) are modelled as `ℕ`, `i64` as `ℤ`
  (the arithmetic in scope never reaches the word-size boundaries);
* `f32` fee rates are modelled as exact rationals, kept as an explicit
  numerator/denominator pair `F32` so that every cast the source performs
  (`.ceil() as u64`, `as u64`, `as i64`) is an executable function;
* `BTreeSet<usize>` is modelled as `Finset ℕ`, `HashMap` / `BTreeMap` as
  function-valued maps;
* a Rust panic is modelled by an `Option` result (`none` = panic).
-/

/-- An `f32` value modelled as the exact rational `num / den`.  The source
uses binary floating point; the claims under verification only depend on the
rounding direction of the explicit casts, which are modelled exactly. -/
structure F32 where
  num : ℤ
  den : ℕ
deriving DecidableEq, Repr

/-- Product of a machine integer (cast to `f32`) with an `f32` rate. -/
def F32.natMul (w : ℕ) (r : F32) : F32 := ⟨(w : ℤ) * r.num, r.den⟩

/-- Difference of two `f32` values. -/
def F32.sub (a b : F32) : F32 := ⟨a.num * (b.den : ℤ) - b.num * (a.den : ℤ), a.den * b.den⟩

/-- Sum of two `f32` values. -/
def F32.add (a b : F32) : F32 := ⟨a.num * (b.den : ℤ) + b.num * (a.den : ℤ), a.den * b.den⟩

/-- `x.ceil() as i64` — ceiling, exact on the model. -/
def F32.ceilToInt (q : F32) : ℤ := -((-q.num).ediv (q.den : ℤ))

/-- `x.ceil() as u64` — ceiling then saturating cast (negative values to 0). -/
def F32.ceilToNat (q : F32) : ℕ := q.ceilToInt.toNat

/-- `x as i64` — truncation toward zero, as a Rust float-to-int cast. -/
def F32.truncToInt (q : F32) : ℤ := q.num.tdiv (q.den : ℤ)

/-- `x as u64` — truncation toward zero then saturating cast. -/
def F32.truncToNat (q : F32) : ℕ := q.truncToInt.toNat

/-- `a > b` for `f32` values (`den` is positive for every rate in use). -/
def F32.gt (a b : F32) : Bool := b.num * (a.den : ℤ) < a.num * (b.den : ℤ)

namespace CoinSelect

/-! ### `bdk_core/src/coin_select.rs` -/

/-- `TXIN_BASE_WEIGHT = (32 + 4 + 4) * 4`. -/
def TXIN_BASE_WEIGHT : ℕ := (32 + 4 + 4) * 4

/-- An input candidate for `CoinSelector` (`struct WeightedValue`). -/
structure WeightedValue where
  value : ℕ
  weight : ℕ
  input_count : ℕ
  is_segwit : Bool
deriving DecidableEq, Repr

instance : Inhabited WeightedValue := ⟨⟨0, 0, 0, false⟩⟩

/-- `WeightedValue::new`. -/
def WeightedValue.new (value : ℕ) (satisfaction_weight : ℕ) (is_segwit : Bool) :
    WeightedValue :=
  { value, weight := TXIN_BASE_WEIGHT + satisfaction_weight, input_count := 1, is_segwit }

/-- `struct CoinSelectorOpt`. -/
structure CoinSelectorOpt where
  target_value : ℕ
  max_extra_target : ℕ
  target_feerate : F32
  long_term_feerate : Option F32
  min_absolute_fee : ℕ
  base_weight : ℕ
  drain_weight : ℕ
  spend_drain_weight : ℕ
  min_drain_value : ℕ
deriving DecidableEq, Repr

/-- `CoinSelectorOpt::long_term_feerate()`. -/
def CoinSelectorOpt.long_term_feerate_or (o : CoinSelectorOpt) : F32 :=
  o.long_term_feerate.getD o.target_feerate

/-- `CoinSelectorOpt::drain_waste()`. -/
def CoinSelectorOpt.drain_waste (o : CoinSelectorOpt) : ℤ :=
  ((F32.natMul o.drain_weight o.target_feerate).add
    (F32.natMul o.spend_drain_weight o.long_term_feerate_or)).truncToInt

/-- `WeightedValue::effective_value`: `value as i64 - (weight as f32 * target_feerate).ceil() as i64`. -/
def WeightedValue.effective_value (c : WeightedValue) (opts : CoinSelectorOpt) : ℤ :=
  (c.value : ℤ) - (F32.natMul c.weight opts.target_feerate).ceilToInt

/-- `fn varint_size`. -/
def varint_size (v : ℕ) : ℕ :=
  if v ≤ 0xfc then 1
  else if v ≤ 0xffff then 3
  else if v ≤ 0xffffffff then 5
  else 9

/-- `struct CoinSelector`: borrowed candidates and options plus the ordered
set of selected candidate positions (`BTreeSet<usize>` as `Finset ℕ`). -/
structure CoinSelector where
  candidates : List WeightedValue
  selected : Finset ℕ
  opts : CoinSelectorOpt
deriving DecidableEq

/-- `CoinSelector::new`. -/
def CoinSelector.new (candidates : List WeightedValue) (opts : CoinSelectorOpt) :
    CoinSelector :=
  { candidates, selected := ∅, opts }

/-- `CoinSelector::candidate` (indexing into the candidate slice). -/
def CoinSelector.candidate (cs : CoinSelector) (index : ℕ) : WeightedValue :=
  cs.candidates.getD index default

/-- `CoinSelector::select`.  The source asserts `index < candidates.len()`;
the panicking case is modelled by `none`. -/
def CoinSelector.select (cs : CoinSelector) (index : ℕ) : Option CoinSelector :=
  if index < cs.candidates.length then
    some { cs with selected := insert index cs.selected }
  else none

/-- `CoinSelector::deselect`. -/
def CoinSelector.deselect (cs : CoinSelector) (index : ℕ) : CoinSelector :=
  { cs with selected := cs.selected.erase index }

/-- `CoinSelector::is_selected`. -/
def CoinSelector.is_selected (cs : CoinSelector) (index : ℕ) : Prop :=
  index ∈ cs.selected

instance (cs : CoinSelector) (index : ℕ) : Decidable (cs.is_selected index) := by
  unfold CoinSelector.is_selected; infer_instance

/-- `CoinSelector::is_empty`. -/
def CoinSelector.selection_is_empty (cs : CoinSelector) : Prop := cs.selected = ∅

instance (cs : CoinSelector) : Decidable cs.selection_is_empty := by
  unfold CoinSelector.selection_is_empty; infer_instance

/-- `CoinSelector::selected_weight`. -/
def CoinSelector.selected_weight (cs : CoinSelector) : ℕ :=
  ∑ i ∈ cs.selected, (cs.candidate i).weight

/-- `CoinSelector::selected_effective_value`. -/
def CoinSelector.selected_effective_value (cs : CoinSelector) : ℤ :=
  ∑ i ∈ cs.selected, (cs.candidate i).effective_value cs.opts

/-- `CoinSelector::selected_absolute_value`. -/
def CoinSelector.selected_absolute_value (cs : CoinSelector) : ℕ :=
  ∑ i ∈ cs.selected, (cs.candidate i).value

/-- `CoinSelector::selected_waste`. -/
def CoinSelector.selected_waste (cs : CoinSelector) : ℤ :=
  (F32.natMul cs.selected_weight
    (cs.opts.target_feerate.sub cs.opts.long_term_feerate_or)).truncToInt

/-- `CoinSelector::current_weight`. -/
def CoinSelector.current_weight (cs : CoinSelector) : ℕ :=
  let witness_header_extra_weight :=
    if ∃ i ∈ cs.selected, (cs.candidate i).is_segwit then 2 else 0
  let input_count := ∑ i ∈ cs.selected, (cs.candidate i).input_count
  let vin_count_varint_extra_weight := (varint_size input_count - 1) * 4
  cs.opts.base_weight + cs.selected_weight + witness_header_extra_weight +
    vin_count_varint_extra_weight

/-- `CoinSelector::effective_target`. -/
def CoinSelector.effective_target (cs : CoinSelector) : ℤ :=
  let acc := cs.candidates.foldl
    (fun (acc : Bool × ℕ) c => (acc.1 || c.is_segwit, acc.2 + c.input_count)) (false, 0)
  let effective_base_weight :=
    cs.opts.base_weight + (if acc.1 then 2 else 0) + (varint_size acc.2 - 1) * 4
  (cs.opts.target_value : ℤ) +
    (F32.natMul effective_base_weight cs.opts.target_feerate).ceilToInt

/-- `enum SelectionConstraint`. -/
inductive SelectionConstraint where
  | TargetValue
  | TargetFee
  | MinAbsoluteFee
deriving DecidableEq, Repr

/-- `enum SelectionFailure`. -/
inductive SelectionFailure where
  | InsufficientFunds (selected : ℕ) (missing : ℕ) (constraint : SelectionConstraint)
deriving DecidableEq, Repr

/-- `enum ExcessStrategyKind`. -/
inductive ExcessStrategyKind where
  | ToFee
  | ToRecipient
  | ToDrain
deriving DecidableEq, Repr

instance : Fintype ExcessStrategyKind :=
  ⟨⟨{ExcessStrategyKind.ToFee, ExcessStrategyKind.ToRecipient, ExcessStrategyKind.ToDrain}, by decide⟩,
    fun k => by cases k <;> decide⟩

/-- `struct ExcessStrategy`. -/
structure ExcessStrategy where
  recipient_value : ℕ
  drain_value : Option ℕ
  fee : ℕ
  weight : ℕ
  waste : ℤ
deriving DecidableEq, Repr

/-- `struct Selection`.  The `HashMap<ExcessStrategyKind, ExcessStrategy>` is
modelled as a function-valued map over the three-element key type. -/
structure Selection where
  selected : Finset ℕ
  excess : ℕ
  excess_strategies : ExcessStrategyKind → Option ExcessStrategy
deriving DecidableEq

/-- `HashMap::insert` on the strategy map. -/
def insertStrategy (m : ExcessStrategyKind → Option ExcessStrategy)
    (k : ExcessStrategyKind) (v : ExcessStrategy) :
    ExcessStrategyKind → Option ExcessStrategy :=
  fun k' => if k' = k then some v else m k'

/-- `Iterator::max_by_key` over the constraint/deficit array: among the
retained entries it returns the last one attaining the maximal key. -/
def maxByKeyLast (l : List (SelectionConstraint × ℕ)) : Option (SelectionConstraint × ℕ) :=
  l.foldl (fun acc p =>
    match acc with
    | none => some p
    | some q => if q.2 ≤ p.2 then some p else acc) none

/-- `CoinSelector::finish` of `bdk_core/src/coin_select.rs`. -/
def CoinSelector.finish (cs : CoinSelector) : Except SelectionFailure Selection :=
  let weight_without_drain := cs.current_weight
  let weight_with_drain := weight_without_drain + cs.opts.drain_weight
  let fee_without_drain := (F32.natMul weight_without_drain cs.opts.target_feerate).ceilToNat
  let fee_with_drain := (F32.natMul weight_with_drain cs.opts.target_feerate).ceilToNat
  let target_value := cs.opts.target_value
  let selected := cs.selected_absolute_value
  match maxByKeyLast (([(SelectionConstraint.TargetValue, target_value - selected),
      (SelectionConstraint.TargetFee, target_value + fee_without_drain - selected),
      (SelectionConstraint.MinAbsoluteFee,
        target_value + cs.opts.min_absolute_fee - selected)]).filter
        (fun p => 0 < p.2)) with
  | some p => .error (.InsufficientFunds selected p.2 p.1)
  | none =>
    let inputs_minus_outputs := selected - target_value
    let fee_without_drain := max fee_without_drain cs.opts.min_absolute_fee
    let fee_with_drain := max fee_with_drain cs.opts.min_absolute_fee
    let excess_without_drain := inputs_minus_outputs - fee_without_drain
    let input_waste := cs.selected_waste
    let es := insertStrategy (fun _ => none) .ToFee
      { recipient_value := target_value
        drain_value := none
        fee := fee_without_drain + excess_without_drain
        weight := weight_without_drain
        waste := input_waste + (excess_without_drain : ℤ) }
    let es := if 0 < excess_without_drain ∧ 0 < cs.opts.max_extra_target then
        let extra_recipient_value := min cs.opts.max_extra_target excess_without_drain
        let extra_fee := excess_without_drain - extra_recipient_value
        insertStrategy es .ToRecipient
          { recipient_value := target_value + extra_recipient_value
            drain_value := none
            fee := fee_without_drain + extra_fee
            weight := weight_without_drain
            waste := input_waste + (extra_fee : ℤ) }
      else es
    let es := if fee_with_drain + cs.opts.min_drain_value ≤ inputs_minus_outputs then
        insertStrategy es .ToDrain
          { recipient_value := target_value
            drain_value := some (inputs_minus_outputs - fee_with_drain)
            fee := fee_with_drain
            weight := weight_with_drain
            waste := input_waste + cs.opts.drain_waste }
      else es
    .ok { selected := cs.selected, excess := excess_without_drain, excess_strategies := es }

end CoinSelect

namespace CoinSelectorV2

/-! ### `bdk_core/src/coin_select/coin_selector.rs`

This variant file re-declares the same data structures; the only behavioural
difference is one clause of `finish()` (the `ToDrain` gate).  The shared data
structures of `CoinSelect` are reused; the variant `finish` is spelled out in
full below. -/

open CoinSelect

/-- `CoinSelector::finish` of `bdk_core/src/coin_select/coin_selector.rs`.
It differs from `CoinSelect.CoinSelector.finish` solely in the `ToDrain`
condition, which additionally requires `fee_with_drain > min_absolute_fee`. -/
def finish (cs : CoinSelector) : Except SelectionFailure Selection :=
  let weight_without_drain := cs.current_weight
  let weight_with_drain := weight_without_drain + cs.opts.drain_weight
  let fee_without_drain := (F32.natMul weight_without_drain cs.opts.target_feerate).ceilToNat
  let fee_with_drain := (F32.natMul weight_with_drain cs.opts.target_feerate).ceilToNat
  let target_value := cs.opts.target_value
  let selected := cs.selected_absolute_value
  match maxByKeyLast (([(SelectionConstraint.TargetValue, target_value - selected),
      (SelectionConstraint.TargetFee, target_value + fee_without_drain - selected),
      (SelectionConstraint.MinAbsoluteFee,
        target_value + cs.opts.min_absolute_fee - selected)]).filter
        (fun p => 0 < p.2)) with
  | some p => .error (.InsufficientFunds selected p.2 p.1)
  | none =>
    let inputs_minus_outputs := selected - target_value
    let fee_without_drain := max fee_without_drain cs.opts.min_absolute_fee
    let fee_with_drain := max fee_with_drain cs.opts.min_absolute_fee
    let excess_without_drain := inputs_minus_outputs - fee_without_drain
    let input_waste := cs.selected_waste
    let es := insertStrategy (fun _ => none) .ToFee
      { recipient_value := target_value
        drain_value := none
        fee := fee_without_drain + excess_without_drain
        weight := weight_without_drain
        waste := input_waste + (excess_without_drain : ℤ) }
    let es := if 0 < excess_without_drain ∧ 0 < cs.opts.max_extra_target then
        let extra_recipient_value := min cs.opts.max_extra_target excess_without_drain
        let extra_fee := excess_without_drain - extra_recipient_value
        insertStrategy es .ToRecipient
          { recipient_value := target_value + extra_recipient_value
            drain_value := none
            fee := fee_without_drain + extra_fee
            weight := weight_without_drain
            waste := input_waste + (extra_fee : ℤ) }
      else es
    let es := if cs.opts.min_absolute_fee < fee_with_drain ∧
        fee_with_drain + cs.opts.min_drain_value ≤ inputs_minus_outputs then
        insertStrategy es .ToDrain
          { recipient_value := target_value
            drain_value := some (inputs_minus_outputs - fee_with_drain)
            fee := fee_with_drain
            weight := weight_with_drain
            waste := input_waste + cs.opts.drain_waste }
      else es
    .ok { selected := cs.selected, excess := excess_without_drain, excess_strategies := es }

end CoinSelectorV2

namespace CoinSelect

/-! ### Branch and Bound (`coin_select.rs`, lower half)

The generic `BnbNum` machinery is embedded at the instantiation used by
`coin_select_bnb`: value type `V = CombinedValue`, metric type `M = i64`. -/

/-- `i64::MAX`, the sentinel used by `BnbState::best_metric`. -/
def i64MAX : ℤ := 2 ^ 63 - 1

/-- `struct CombinedValue`. -/
structure CombinedValue where
  eff_value : ℤ
  abs_value : ℕ
deriving DecidableEq, Repr

/-- `impl Add for CombinedValue`. -/
def CombinedValue.add (a b : CombinedValue) : CombinedValue :=
  ⟨a.eff_value + b.eff_value, a.abs_value + b.abs_value⟩

/-- `impl Sub for CombinedValue`.  `abs_value` is a `u64` subtraction; the
truncated `ℕ` subtraction models it (the wrap-around case is a debug-build
panic and is never exercised by the algorithm). -/
def CombinedValue.sub (a b : CombinedValue) : CombinedValue :=
  ⟨a.eff_value - b.eff_value, a.abs_value - b.abs_value⟩

/-- `CombinedValue::ZERO` (`Default` / `BnbNum::ZERO`). -/
def CombinedValue.zero : CombinedValue := ⟨0, 0⟩

/-- `impl PartialOrd for CombinedValue::partial_cmp`, clause by clause. -/
def CombinedValue.pcmp (a b : CombinedValue) : Option Ordering :=
  if a.eff_value = b.eff_value ∧ a.abs_value = b.abs_value then some .eq
  else if b.eff_value ≤ a.eff_value ∧ b.abs_value ≤ a.abs_value then some .gt
  else if a.eff_value < b.eff_value ∨ a.abs_value < b.abs_value then some .lt
  else none

/-- Rust `a < b`, i.e. `partial_cmp == Some(Less)`. -/
def CombinedValue.ltb (a b : CombinedValue) : Bool :=
  match a.pcmp b with
  | some .lt => true
  | _ => false

/-- Rust `a > b`, i.e. `partial_cmp == Some(Greater)`. -/
def CombinedValue.gtb (a b : CombinedValue) : Bool :=
  match a.pcmp b with
  | some .gt => true
  | _ => false

/-- Rust `a <= b`, i.e. `partial_cmp` is `Some(Less | Equal)`. -/
def CombinedValue.leb (a b : CombinedValue) : Bool :=
  match a.pcmp b with
  | some .lt => true
  | some .eq => true
  | _ => false

/-- Rust `a >= b`, i.e. `partial_cmp` is `Some(Greater | Equal)`. -/
def CombinedValue.geb (a b : CombinedValue) : Bool :=
  match a.pcmp b with
  | some .gt => true
  | some .eq => true
  | _ => false

/-- `CombinedValue::bounds`: the `(target_value, upper_bound)` pair for BnB. -/
def CombinedValue.bounds (selector : CoinSelector) : CombinedValue × CombinedValue :=
  let opts := selector.opts
  let target_value : CombinedValue :=
    ⟨selector.effective_target, opts.target_value + opts.min_absolute_fee⟩
  let upper_bound : CombinedValue :=
    ⟨target_value.eff_value + opts.drain_waste,
      target_value.abs_value + (F32.natMul opts.drain_weight opts.target_feerate).truncToNat⟩
  (target_value, upper_bound)

/-- The `value_fn` closure of `coin_select_bnb`. -/
def value_fn (selector : CoinSelector) (candidate : WeightedValue) : CombinedValue :=
  ⟨candidate.effective_value selector.opts, candidate.value⟩

/-- The `metric_fn` closure of `coin_select_bnb`. -/
def metric_fn (selector : CoinSelector) (candidate : WeightedValue) : ℤ :=
  (F32.natMul candidate.weight
    (selector.opts.target_feerate.sub selector.opts.long_term_feerate_or)).truncToInt

/-- The `additional_metric_fn` closure of `coin_select_bnb` (it captures the
lower bound `target_value` computed before the search starts). -/
def additional_metric_fn (target_value : CombinedValue) (selector : CoinSelector) : ℤ :=
  selector.selected_effective_value - target_value.eff_value

/-- `struct BnbParams`, with the three closures fixed to the instantiation of
`coin_select_bnb` (`value_fn`, `metric_fn`, `additional_metric_fn` above). -/
structure BnbParams where
  pool : List (ℕ × WeightedValue)
  target_value : CombinedValue
  upper_bound : CombinedValue
  metric_increases : Bool
deriving DecidableEq

/-- `struct BnbState` (the `params` field is passed separately). -/
structure BnbState where
  selection : CoinSelector
  best : Option ℤ
  pos : ℕ
  done : Bool
  remaining_value : CombinedValue
deriving DecidableEq

/-- `BnbState::current_value`. -/
def BnbState.current_value (st : BnbState) : CombinedValue :=
  ⟨∑ i ∈ st.selection.selected, (value_fn st.selection (st.selection.candidate i)).eff_value,
    ∑ i ∈ st.selection.selected, (value_fn st.selection (st.selection.candidate i)).abs_value⟩

/-- `BnbState::current_metric`. -/
def BnbState.current_metric (st : BnbState) : ℤ :=
  ∑ i ∈ st.selection.selected, metric_fn st.selection (st.selection.candidate i)

/-- `BnbState::best_metric`: `best.unwrap_or(M::MAX)`. -/
def BnbState.best_metric (st : BnbState) : ℤ := st.best.getD i64MAX

/-- `BnbState::check`: returns `(is_solution, backtrack)`. -/
def check (p : BnbParams) (st : BnbState) : Bool × Bool :=
  let current_value := st.current_value
  if (current_value.add st.remaining_value).ltb p.target_value then (false, true)
  else if current_value.gtb p.upper_bound then (false, true)
  else if current_value.geb p.target_value then (true, true)
  else if p.metric_increases && decide (st.best_metric < st.current_metric) then (false, true)
  else (false, false)

/-- `BnbState::early_bailout`. -/
def early_bailout (p : BnbParams) (st : BnbState) : Bool :=
  if 0 < st.pos ∧ ¬st.selection.selection_is_empty then
    let candidate := (p.pool.getD st.pos default).2
    let prev := p.pool.getD (st.pos - 1) default
    ¬st.selection.is_selected prev.1 ∧ candidate.value = prev.2.value ∧
      candidate.weight = prev.2.weight
  else False

instance (p : BnbParams) (st : BnbState) : Decidable (early_bailout p st) := by
  unfold early_bailout; infer_instance

/-- The `(0..self.pos).rev().find_map(..)` loop of the backtracking branch of
`BnbState::next`: walk positions downward, re-adding the value of unselected
candidates to `remaining_value`, until a selected position is found.
`none` models an out-of-bounds pool index (a panic). -/
def backtrackScan (p : BnbParams) (sel : CoinSelector) :
    ℕ → CombinedValue → Option (Option (ℕ × ℕ) × CombinedValue)
  | 0, rem => some (none, rem)
  | k + 1, rem =>
    match p.pool[k]? with
    | none => none
    | some (index, candidate) =>
      if index ∈ sel.selected then some (some (k, index), rem)
      else backtrackScan p sel k (rem.add (value_fn sel candidate))

/-- Result of one call of `<BnbState as Iterator>::next`:
`crash` models a panic, `stop` models `next()` returning `None`, and
`yield item st` models `next()` returning `Some(item)` with successor state
`st`. -/
inductive BnbStep where
  | crash
  | stop
  | yield (item : Option CoinSelector) (st : BnbState)
deriving DecidableEq

/-- The `(best, best_selection)` update of `<BnbState as Iterator>::next`
(the body of its `if is_solution { .. }` block). -/
def bnbBest (p : BnbParams) (st : BnbState) : Option ℤ × Option CoinSelector :=
  if (check p st).1 then
    let current_metric := st.current_metric + additional_metric_fn p.target_value st.selection
    if current_metric ≤ st.best_metric then (some current_metric, some st.selection)
    else (st.best, (none : Option CoinSelector))
  else (st.best, none)

/-- `<BnbState as Iterator>::next`. -/
def bnbNext (p : BnbParams) (st : BnbState) : BnbStep :=
  if st.done then .stop
  else
    let backtrack := (check p st).2
    let best' := (bnbBest p st).1
    let best_selection := (bnbBest p st).2
    if backtrack then
      match backtrackScan p st.selection st.pos st.remaining_value with
      | none => .crash
      | some (some lastp, rem) =>
        .yield best_selection
          { selection := st.selection.deselect lastp.2, best := best',
            pos := lastp.1 + 1, done := st.done, remaining_value := rem }
      | some (none, rem) =>
        let st' : BnbState :=
          { selection := st.selection, best := best', pos := st.pos + 1,
            done := true, remaining_value := rem }
        if best_selection.isSome then .yield best_selection st' else .stop
    else
      match p.pool[st.pos]? with
      | none => .crash
      | some (index, candidate) =>
        let rem := st.remaining_value.sub (value_fn st.selection candidate)
        if early_bailout p st then
          .yield best_selection
            { selection := st.selection, best := best', pos := st.pos + 1,
              done := st.done, remaining_value := rem }
        else
          match st.selection.select index with
          | none => .crash
          | some sel' =>
            .yield best_selection
              { selection := sel', best := best', pos := st.pos + 1,
                done := st.done, remaining_value := rem }

/-- `BnbState::new`: `none` models the `Err("remaining value is insufficient")`
result. -/
def BnbState.new (p : BnbParams) (selector : CoinSelector) : Option BnbState :=
  let remaining_value :=
    (p.pool.map (fun q => value_fn selector q.2)).foldl CombinedValue.add CombinedValue.zero
  let selected_value : CombinedValue :=
    ⟨∑ i ∈ selector.selected, (value_fn selector (selector.candidate i)).eff_value,
      ∑ i ∈ selector.selected, (value_fn selector (selector.candidate i)).abs_value⟩
  if (selected_value.add remaining_value).ltb p.target_value then none
  else some { selection := selector, best := none, pos := 0, done := false, remaining_value }

/-- Driving the iterator for at most `fuel` steps (`take(max_tries)`),
collecting the yielded items.  `none` models a panic inside `next`. -/
def bnbRun (p : BnbParams) : ℕ → BnbState → Option (List (Option CoinSelector))
  | 0, _ => some []
  | n + 1, st =>
    match bnbNext p st with
    | .crash => none
    | .stop => some []
    | .yield item st' => (bnbRun p n st').map (item :: ·)

/-- `Iterator::reduce(|b, c| if c.is_some() { c } else { b })`: `none` for an
empty item list, otherwise the fold that keeps the last `Some` item. -/
def reduceKeepSome (l : List (Option CoinSelector)) : Option (Option CoinSelector) :=
  match l with
  | [] => none
  | x :: xs => some (xs.foldl (fun b c => if c.isSome then c else b) x)

/-- Insert `a` into `l` before the first element that `r` relates it to. -/
def insertSorted {α : Type} (r : α → α → Bool) (a : α) : List α → List α
  | [] => [a]
  | b :: l => if r a b then a :: b :: l else b :: insertSorted r a l

/-- `slice::sort_unstable_by` under the Boolean comparator `r`, as an
insertion sort.  The source's sort is unstable - the permutation among
`r`-equal elements is unspecified - so any `r`-sorted permutation models it. -/
def sortUnstableBy {α : Type} (r : α → α → Bool) : List α → List α
  | [] => []
  | a :: l => insertSorted r a (sortUnstableBy r l)

theorem mem_insertSorted {α : Type} (r : α → α → Bool) (a x : α) :
    ∀ l : List α, x ∈ insertSorted r a l ↔ x = a ∨ x ∈ l := by
  intro l
  induction l with
  | nil => simp [insertSorted]
  | cons b l ih =>
    unfold insertSorted
    by_cases hr : r a b
    · rw [if_pos hr]
      simp
    · rw [if_neg hr]
      simp only [List.mem_cons, ih]
      tauto

theorem mem_sortUnstableBy {α : Type} (r : α → α → Bool) (x : α) :
    ∀ l : List α, x ∈ sortUnstableBy r l ↔ x ∈ l := by
  intro l
  induction l with
  | nil => simp [sortUnstableBy]
  | cons b l ih =>
    unfold sortUnstableBy
    rw [mem_insertSorted, ih]
    simp

/-- `fn coin_select_bnb`.  The outer `Option` models a panic (never a value
the source returns); the inner `Option` is the source's `Option<CoinSelector>`
result. -/
def coin_select_bnb (max_tries : ℕ) (selector : CoinSelector) :
    Option (Option CoinSelector) :=
  let opts := selector.opts
  let pool := sortUnstableBy
      (fun a b => decide (b.2.effective_value opts ≤ a.2.effective_value opts))
      ((selector.candidates.enum.filter
        (fun q => !decide (q.1 ∈ selector.selected))).filter
        (fun q => decide (0 < q.2.effective_value opts)))
  let bounds := CombinedValue.bounds selector
  let params : BnbParams :=
    { pool
      target_value := bounds.1
      upper_bound := bounds.2
      metric_increases := opts.target_feerate.gt opts.long_term_feerate_or }
  match BnbState.new params selector with
  | none => some none
  | some st =>
    match bnbRun params max_tries st with
    | none => none
    | some items =>
      some (match reduceKeepSome items with
        | none => none
        | some r => r)

end CoinSelect

namespace BdkChain

/-! ### `bdk_chain/src/keychain.rs` and `bdk_chain/src/keychain/keychain_txout_index.rs`

The keychain identifier `K`, the script pubkey type `S` and the outpoint type
`O` are parameters.  `BTreeMap`s are modelled as function-valued maps. -/

/-- `DerivationAdditions<K>`: a `BTreeMap<K, u32>` as a function-valued map. -/
def DerivationAdditions (K : Type) : Type := K → Option ℕ

/-- `DerivationAdditions::default()` — the empty map. -/
def DerivationAdditions.empty {K : Type} : DerivationAdditions K := fun _ => none

/-- `DerivationAdditions::is_empty`. -/
def DerivationAdditions.is_empty {K : Type} (a : DerivationAdditions K) : Prop :=
  ∀ k, a k = none

/-- `DerivationAdditions::append` (`keychain.rs` lines 44-58): keys present in
both maps take the maximum of the two indices, keys present in exactly one map
keep their index. -/
def DerivationAdditions.append {K : Type} (a b : DerivationAdditions K) :
    DerivationAdditions K :=
  fun k =>
    match a k, b k with
    | some x, some y => some (max x y)
    | some x, none => some x
    | none, y => y

/-- The singleton map `DerivationAdditions([(keychain, index)].into())`. -/
def DerivationAdditions.single {K : Type} [DecidableEq K] (keychain : K) (index : ℕ) :
    DerivationAdditions K :=
  fun k => if k = keychain then some index else none

/-- `DERIVED_KEY_COUNT = 1 << 31`. -/
def DERIVED_KEY_COUNT : ℕ := 2 ^ 31

/-- A `TxOut` as consumed by the index: only its script pubkey is consulted. -/
structure TxOutS (S : Type) where
  script_pubkey : S
deriving DecidableEq

/-- The external descriptor facility (spec section 6): `has_wildcard()` and a
fallible `derive(index)`.  Per the spec, derivation "fails for hardened steps
and on overflow" and a failure is "an enumeration boundary, not an error", so
`derive` succeeds exactly below a cut-off `derivableCount`. -/
structure Descriptor (S : Type) where
  has_wildcard : Bool
  spkAt : ℕ → S
  derivableCount : ℕ

/-- `Descriptor::derive` (via `derived_descriptor`): the script pubkey at
`index`, failing from `derivableCount` on. -/
def Descriptor.derive {S : Type} (d : Descriptor S) (index : ℕ) : Option S :=
  if index < d.derivableCount then some (d.spkAt index) else none

/-- Modelled from the spec: `SpkTxOutIndex` lives in
`bdk_chain/src/spk_txout_index.rs`, which is not under `src/`.  The spec
describes it as a reverse index from script pubkey to `(keychain, index)`, a
map of stored script pubkeys, an "unused" set, and an `OutputIndex` recording
the observed outpoints per script pubkey. -/
structure SpkTxOutIndex (I S O : Type) where
  script_pubkeys : I → Option S
  spk_indices : S → Option I
  unused : I → Bool
  outputs : S → O → Bool

/-- Modelled from the spec: `SpkTxOutIndex::insert_script_pubkey` records the
script under its index in both directions; a fresh entry starts unused. -/
def SpkTxOutIndex.insert_script_pubkey {I S O : Type} [DecidableEq I] [DecidableEq S]
    (x : SpkTxOutIndex I S O) (index : I) (spk : S) : SpkTxOutIndex I S O :=
  { x with
    script_pubkeys := fun j => if j = index then some spk else x.script_pubkeys j
    spk_indices := fun s => if s = spk then some index else x.spk_indices s
    unused := fun j => if j = index then true else x.unused j }

/-- Modelled from the spec: `SpkTxOutIndex::scan_txout` consults the reverse
index for the txout's script; on a match it records the outpoint under that
script in the `OutputIndex`, removes the matched index from the unused set and
returns the matched index. -/
def SpkTxOutIndex.scan_txout {I S O : Type} [DecidableEq I] [DecidableEq S] [DecidableEq O]
    (x : SpkTxOutIndex I S O) (op : O) (txout : TxOutS S) :
    Option I × SpkTxOutIndex I S O :=
  match x.spk_indices txout.script_pubkey with
  | some index =>
    (some index,
      { x with
        outputs := fun s o =>
          if s = txout.script_pubkey ∧ o = op then true else x.outputs s o
        unused := fun j => if j = index then false else x.unused j })
  | none => (none, x)

/-- `map_while(|index| descriptor.derived_descriptor(&secp, index)...)`:
enumerate until the first derivation failure. -/
def mapWhileDerive {S : Type} (d : Descriptor S) : List ℕ → List (ℕ × S)
  | [] => []
  | i :: is =>
    match d.derive i with
    | some s => (i, s) :: mapWhileDerive d is
    | none => []

/-- `fn range_descriptor_spks` over an explicit index list: non-wildcard
descriptors stop after index 0, indices are capped below `DERIVED_KEY_COUNT`,
then scripts are derived until the first failure. -/
def range_descriptor_spks {S : Type} (d : Descriptor S) (range : List ℕ) : List (ℕ × S) :=
  mapWhileDerive d
    (((range.takeWhile (fun i => d.has_wildcard || i == 0)).takeWhile
      (fun i => i < DERIVED_KEY_COUNT)))

/-- `a..=b` as a list (empty when `b < a`). -/
def rangeIncl (a b : ℕ) : List ℕ := List.range' a (b + 1 - a)

/-- `struct KeychainTxOutIndex<K>`. -/
structure KeychainTxOutIndex (K S O : Type) where
  inner : SpkTxOutIndex (K × ℕ) S O
  keychains : K → Option (Descriptor S)
  last_revealed : K → Option ℕ
  lookahead : K → Option ℕ

/-- `KeychainTxOutIndex::reveal_to` (`keychain_txout_index.rs` lines 321-365).
`none` models the "keychain must exist" panic. -/
def KeychainTxOutIndex.reveal_to {K S O : Type} [DecidableEq K] [DecidableEq S]
    (st : KeychainTxOutIndex K S O) (keychain : K) (target_index : ℕ) :
    Option (DerivationAdditions K × KeychainTxOutIndex K S O) :=
  match st.keychains keychain with
  | none => none
  | some descriptor =>
    let has_wildcard := descriptor.has_wildcard
    let target_index := if has_wildcard then target_index else 0
    let next_index := (st.last_revealed keychain).elim 0 (· + 1)
    let lookahead := (st.lookahead keychain).getD 0
    if target_index < next_index then some (DerivationAdditions.empty, st)
    else
      let revealed0 : Option ℕ :=
        if target_index < next_index + lookahead then some target_index else none
      let steps := range_descriptor_spks descriptor
        (rangeIncl (next_index + lookahead) (target_index + lookahead))
      let folded := steps.foldl
        (fun (acc : SpkTxOutIndex (K × ℕ) S O × Option ℕ) q =>
          (acc.1.insert_script_pubkey (keychain, q.1) q.2,
            if q.1 ≤ target_index then some q.1 else acc.2))
        (st.inner, revealed0)
      match folded.2 with
      | some index =>
        some (DerivationAdditions.single keychain index,
          { st with
            inner := folded.1
            last_revealed := fun k => if k = keychain then some index else st.last_revealed k })
      | none => some (DerivationAdditions.empty, { st with inner := folded.1 })

/-- `KeychainTxOutIndex::scan_txout` (`keychain_txout_index.rs` lines 116-121). -/
def KeychainTxOutIndex.scan_txout {K S O : Type} [DecidableEq K] [DecidableEq S] [DecidableEq O]
    (st : KeychainTxOutIndex K S O) (op : O) (txout : TxOutS S) :
    Option (DerivationAdditions K × KeychainTxOutIndex K S O) :=
  match st.inner.scan_txout op txout with
  | (some ki, inner') => KeychainTxOutIndex.reveal_to { st with inner := inner' } ki.1 ki.2
  | (none, inner') => some (DerivationAdditions.empty, { st with inner := inner' })

/-- `KeychainTxOutIndex::scan` (`keychain_txout_index.rs` lines 107-111):
fold over the batch, appending the additions of each `scan_txout`. -/
def KeychainTxOutIndex.scan {K S O : Type} [DecidableEq K] [DecidableEq S] [DecidableEq O]
    (st : KeychainTxOutIndex K S O) (txouts : List (O × TxOutS S)) :
    Option (DerivationAdditions K × KeychainTxOutIndex K S O) :=
  txouts.foldl
    (fun acc q =>
      acc.bind fun r =>
        (r.2.scan_txout q.1 q.2).map fun r' => (r.1.append r'.1, r'.2))
    (some (DerivationAdditions.empty, st))

end BdkChain

/-! ## Claim C9 — `DerivationAdditions::append` -/

namespace BdkChain

/-- The keychain enumeration of the source's
`append_keychain_derivation_indices` test. -/
inductive Keychain where
  | One
  | Two
  | Three
  | Four
deriving DecidableEq

/-- The left operand `{One: 7, Two: 0, Three: 3}` of the append scenario. -/
def additionsLhs : DerivationAdditions Keychain :=
  fun k =>
    match k with
    | .One => some 7
    | .Two => some 0
    | .Three => some 3
    | .Four => none

/-- The right operand `{One: 3, Two: 5, Four: 4}` of the append scenario. -/
def additionsRhs : DerivationAdditions Keychain :=
  fun k =>
    match k with
    | .One => some 3
    | .Two => some 5
    | .Three => none
    | .Four => some 4

/-- The expected result `{One: 7, Two: 5, Three: 3, Four: 4}`. -/
def additionsExpected : DerivationAdditions Keychain :=
  fun k =>
    match k with
    | .One => some 7
    | .Two => some 5
    | .Three => some 3
    | .Four => some 4

/-- C9: `DerivationAdditions.append` combines maps by pointwise maximum of
per-keychain indices; it is associative and commutative with the empty map as
identity, and appending `{One:3, Two:5, Four:4}` to `{One:7, Two:0, Three:3}`
yields `{One:7, Two:5, Three:3, Four:4}`. -/
theorem derivationAdditions_append_spec :
    (∀ (K : Type) (a b c : DerivationAdditions K),
      (a.append b).append c = a.append (b.append c)) ∧
    (∀ (K : Type) (a b : DerivationAdditions K), a.append b = b.append a) ∧
    (∀ (K : Type) (a : DerivationAdditions K),
      a.append DerivationAdditions.empty = a) ∧
    additionsLhs.append additionsRhs = additionsExpected := by
  refine ⟨?_, ?_, ?_, ?_⟩
  · intro K a b c
    funext k
    simp only [DerivationAdditions.append]
    rcases a k with _ | x <;> rcases b k with _ | y <;> rcases c k with _ | z <;>
      simp [Nat.max_assoc]
  · intro K a b
    funext k
    simp only [DerivationAdditions.append]
    rcases a k with _ | x <;> rcases b k with _ | y <;> simp [Nat.max_comm]
  · intro K a
    funext k
    simp only [DerivationAdditions.append, DerivationAdditions.empty]
    rcases a k with _ | x <;> rfl
  · funext k
    cases k <;> rfl

end BdkChain

/-! ## Claim C2 — the ordering on `CombinedValue` -/

namespace CoinSelect

/-- C2 (corrected): `partial_cmp` on `CombinedValue` never returns `None`;
`>=` is the product order (both coordinates `≥`), and hence the strict `>`
used by the BnB upper-bound test is the strict product order, but `<=` is
*not* the product order: it holds whenever the pairs are equal or at least one
coordinate is strictly smaller.  Pairs with one coordinate greater and the
other smaller compare as `Less` in both directions, so the upper-bound test
`current_value > upper_bound` of `check` treats them as not above the bound. -/
theorem combinedValue_pcmp_eq (a b : CombinedValue) :
    a.pcmp b =
      if a.eff_value = b.eff_value ∧ a.abs_value = b.abs_value then some Ordering.eq
      else if b.eff_value ≤ a.eff_value ∧ b.abs_value ≤ a.abs_value then some Ordering.gt
      else some Ordering.lt := by
  unfold CombinedValue.pcmp
  split_ifs with h1 h2 h3
  · rfl
  · rfl
  · rfl
  · exact absurd ⟨le_of_not_lt (not_or.mp h3).1, le_of_not_lt (not_or.mp h3).2⟩ h2

theorem combinedValue_order_spec :
    (∀ a b : CombinedValue, a.pcmp b ≠ none) ∧
    (∀ a b : CombinedValue,
      a.geb b = true ↔ b.eff_value ≤ a.eff_value ∧ b.abs_value ≤ a.abs_value) ∧
    (∀ a b : CombinedValue,
      a.leb b = true ↔ a = b ∨ a.eff_value < b.eff_value ∨ a.abs_value < b.abs_value) ∧
    (∀ a b : CombinedValue, a.eff_value < b.eff_value → b.abs_value < a.abs_value →
      a.ltb b = true ∧ b.ltb a = true ∧ a.gtb b = false ∧ b.gtb a = false) := by
  refine ⟨?_, ?_, ?_, ?_⟩
  · intro a b
    rw [combinedValue_pcmp_eq]
    split_ifs <;> simp
  · intro a b
    unfold CombinedValue.geb
    rw [combinedValue_pcmp_eq]
    split_ifs with h1 h2
    · exact iff_of_true rfl ⟨le_of_eq h1.1.symm, le_of_eq h1.2.symm⟩
    · exact iff_of_true rfl h2
    · exact iff_of_false (by simp) h2
  · intro a b
    unfold CombinedValue.leb
    rw [combinedValue_pcmp_eq]
    split_ifs with h1 h2
    · refine iff_of_true rfl (Or.inl ?_)
      cases a; cases b
      simp_all
    · refine iff_of_false (by simp) ?_
      rintro (rfl | h | h)
      · exact h1 ⟨rfl, rfl⟩
      · exact absurd h2.1 (not_le.mpr h)
      · exact absurd h2.2 (not_le.mpr h)
    · refine iff_of_true rfl ?_
      by_contra hc
      push_neg at hc
      exact h2 ⟨hc.2.1, hc.2.2⟩
  · intro a b he ha
    refine ⟨?_, ?_, ?_, ?_⟩
    · unfold CombinedValue.ltb
      rw [combinedValue_pcmp_eq, if_neg (by rintro ⟨h1, _⟩; omega),
        if_neg (by rintro ⟨h1, _⟩; omega)]
    · unfold CombinedValue.ltb
      rw [combinedValue_pcmp_eq, if_neg (by rintro ⟨h1, _⟩; omega),
        if_neg (by rintro ⟨_, h2⟩; omega)]
    · unfold CombinedValue.gtb
      rw [combinedValue_pcmp_eq, if_neg (by rintro ⟨h1, _⟩; omega),
        if_neg (by rintro ⟨h1, _⟩; omega)]
    · unfold CombinedValue.gtb
      rw [combinedValue_pcmp_eq, if_neg (by rintro ⟨h1, _⟩; omega),
        if_neg (by rintro ⟨_, h2⟩; omega)]

/-- Witness for C2's conditional conjunct at the concrete incomparable pair
`(1, 5)` against `(2, 3)`. -/
theorem combinedValue_order_spec_witness :
    CombinedValue.ltb ⟨1, 5⟩ ⟨2, 3⟩ = true ∧ CombinedValue.ltb ⟨2, 3⟩ ⟨1, 5⟩ = true ∧
      CombinedValue.gtb ⟨1, 5⟩ ⟨2, 3⟩ = false ∧ CombinedValue.gtb ⟨2, 3⟩ ⟨1, 5⟩ = false :=
  combinedValue_order_spec.2.2.2 ⟨1, 5⟩ ⟨2, 3⟩ (by decide) (by decide)

/-- Counterexample for C2 as stated: on the incomparable pair `(1, 5)` and
`(2, 3)` the source's `partial_cmp` returns `Some(Less)` rather than `None`,
so `<=` holds although the coordinatewise comparison `5 ≤ 3` fails: the order
is not the product order. -/
theorem combinedValue_order_cex :
    CombinedValue.pcmp ⟨1, 5⟩ ⟨2, 3⟩ = some Ordering.lt ∧
      CombinedValue.leb ⟨1, 5⟩ ⟨2, 3⟩ = true ∧ ¬((5 : ℕ) ≤ 3) := by
  decide

/-! ## Claim C10 — `CoinSelector::select` -/

/-- C10: `select(index)` panics exactly when `index ≥ candidates.len()`;
under the precondition `index < candidates.len()` it succeeds, afterwards
`is_selected(index)` holds, the candidates and options are unchanged, and
selecting an already-selected index leaves the selector unchanged. -/
theorem coinSelector_select_spec (cs : CoinSelector) (index : ℕ) :
    (cs.candidates.length ≤ index → cs.select index = none) ∧
    (index < cs.candidates.length →
      ∃ cs', cs.select index = some cs' ∧ cs'.is_selected index ∧
        cs'.candidates = cs.candidates ∧ cs'.opts = cs.opts ∧
        (cs.is_selected index → cs' = cs)) := by
  constructor
  · intro h
    unfold CoinSelector.select
    rw [if_neg (by omega)]
  · intro h
    refine ⟨{ cs with selected := insert index cs.selected }, ?_, ?_, rfl, rfl, ?_⟩
    · unfold CoinSelector.select
      rw [if_pos h]
    · exact Finset.mem_insert_self index cs.selected
    · intro hmem
      have : insert index cs.selected = cs.selected := Finset.insert_eq_self.mpr hmem
      rw [this]

/-- A zeroed option set used by concrete scenarios. -/
def opts0 : CoinSelectorOpt :=
  { target_value := 0, max_extra_target := 0, target_feerate := ⟨0, 1⟩,
    long_term_feerate := none, min_absolute_fee := 0, base_weight := 0,
    drain_weight := 0, spend_drain_weight := 0, min_drain_value := 0 }

/-- Witness for C10 at a concrete selector with one candidate. -/
theorem coinSelector_select_spec_witness :
    ((CoinSelector.new [default] opts0).candidates.length ≤ 1 →
      (CoinSelector.new [default] opts0).select 1 = none) ∧
    ∃ cs', (CoinSelector.new [default] opts0).select 0 = some cs' ∧
      cs'.is_selected 0 ∧ cs'.candidates = (CoinSelector.new [default] opts0).candidates ∧
      cs'.opts = (CoinSelector.new [default] opts0).opts ∧
      ((CoinSelector.new [default] opts0).is_selected 0 →
        cs' = CoinSelector.new [default] opts0) :=
  ⟨(coinSelector_select_spec (CoinSelector.new [default] opts0) 1).1,
    (coinSelector_select_spec (CoinSelector.new [default] opts0) 0).2 (by decide)⟩

end CoinSelect

namespace CoinSelect

/-! ## Claims C6, C7, C1 — `finish()` -/

/-- The deficit of each `finish()` constraint at the current selection. -/
def CoinSelector.constraint_deficit (cs : CoinSelector) : SelectionConstraint → ℕ
  | .TargetValue => cs.opts.target_value - cs.selected_absolute_value
  | .TargetFee =>
    cs.opts.target_value + (F32.natMul cs.current_weight cs.opts.target_feerate).ceilToNat -
      cs.selected_absolute_value
  | .MinAbsoluteFee =>
    cs.opts.target_value + cs.opts.min_absolute_fee - cs.selected_absolute_value

/-- The fold step of `maxByKeyLast`, named for reasoning. -/
def maxStep (acc : Option (SelectionConstraint × ℕ)) (q : SelectionConstraint × ℕ) :
    Option (SelectionConstraint × ℕ) :=
  match acc with
  | none => some q
  | some r => if r.2 ≤ q.2 then some q else acc

theorem maxByKeyLast_eq_foldl (l : List (SelectionConstraint × ℕ)) :
    maxByKeyLast l = l.foldl maxStep none := rfl

theorem maxStep_none (q : SelectionConstraint × ℕ) : maxStep none q = some q := rfl

theorem maxStep_some (r q : SelectionConstraint × ℕ) :
    maxStep (some r) q = if r.2 ≤ q.2 then some q else some r := rfl

theorem maxByKeyLast_aux (l : List (SelectionConstraint × ℕ)) :
    ∀ (acc : Option (SelectionConstraint × ℕ)) (p : SelectionConstraint × ℕ),
      l.foldl maxStep acc = some p →
      (acc = some p ∨ p ∈ l) ∧ (∀ q, acc = some q → q.2 ≤ p.2) ∧ ∀ q ∈ l, q.2 ≤ p.2 := by
  induction l with
  | nil =>
    intro acc p h
    refine ⟨Or.inl h, fun q hq => ?_, by simp⟩
    rw [hq] at h
    cases h
    exact le_refl _
  | cons x xs ih =>
    intro acc p h
    rw [List.foldl_cons] at h
    obtain ⟨h1, h2, h3⟩ := ih _ p h
    have hstep : ∀ q, maxStep acc x = some q → q = x ∨ acc = some q := by
      intro q hq
      rcases acc with _ | a
      · rw [maxStep_none] at hq
        cases hq
        exact Or.inl rfl
      · rw [maxStep_some] at hq
        split_ifs at hq <;> cases hq
        · exact Or.inl rfl
        · exact Or.inr rfl
    have hxle : x.2 ≤ p.2 := by
      rcases acc with _ | a
      · exact h2 x (by rw [maxStep_none])
      · rcases le_or_lt a.2 x.2 with hax | hax
        · exact h2 x (by rw [maxStep_some, if_pos hax])
        · have := h2 a (by rw [maxStep_some, if_neg (not_le.mpr hax)])
          omega
    refine ⟨?_, ?_, ?_⟩
    · rcases h1 with h1 | h1
      · rcases hstep p h1 with rfl | h
        · exact Or.inr (List.mem_cons_self _ _)
        · exact Or.inl h
      · exact Or.inr (List.mem_cons_of_mem _ h1)
    · intro q hq
      subst hq
      rcases le_or_lt q.2 x.2 with hax | hax
      · calc q.2 ≤ x.2 := hax
          _ ≤ p.2 := hxle
      · exact h2 q (by rw [maxStep_some, if_neg (not_le.mpr hax)])
    · intro q hq
      rcases List.mem_cons.mp hq with rfl | hq
      · exact hxle
      · exact h3 q hq

theorem maxByKeyLast_spec (l : List (SelectionConstraint × ℕ)) (p : SelectionConstraint × ℕ)
    (h : maxByKeyLast l = some p) : p ∈ l ∧ ∀ q ∈ l, q.2 ≤ p.2 := by
  rw [maxByKeyLast_eq_foldl] at h
  obtain ⟨h1, _, h3⟩ := maxByKeyLast_aux l none p h
  refine ⟨?_, h3⟩
  rcases h1 with h1 | h1
  · cases h1
  · exact h1

theorem maxByKeyLast_eq_none_iff (l : List (SelectionConstraint × ℕ)) :
    maxByKeyLast l = none ↔ l = [] := by
  constructor
  · intro h
    cases l with
    | nil => rfl
    | cons x xs =>
      exfalso
      have hsome : ∀ (ys : List (SelectionConstraint × ℕ)) (a : SelectionConstraint × ℕ),
          (ys.foldl maxStep (some a)).isSome := by
        intro ys
        induction ys with
        | nil => intro a; rfl
        | cons y ys ihy =>
          intro a
          rw [List.foldl_cons, maxStep_some]
          split_ifs
          · exact ihy y
          · exact ihy a
      rw [maxByKeyLast_eq_foldl, List.foldl_cons, maxStep_none] at h
      have := hsome xs x
      rw [h] at this
      exact Bool.noConfusion this
  · rintro rfl
    rfl

/-- The filtered constraint/deficit list built by `finish()`. -/
def constraintL (cs : CoinSelector) : List (SelectionConstraint × ℕ) :=
  ([(SelectionConstraint.TargetValue, cs.opts.target_value - cs.selected_absolute_value),
    (SelectionConstraint.TargetFee,
      cs.opts.target_value +
        (F32.natMul cs.current_weight cs.opts.target_feerate).ceilToNat -
        cs.selected_absolute_value),
    (SelectionConstraint.MinAbsoluteFee,
      cs.opts.target_value + cs.opts.min_absolute_fee - cs.selected_absolute_value)]).filter
    (fun p => 0 < p.2)

theorem finish_error_iff (cs : CoinSelector) (e : SelectionFailure) :
    cs.finish = .error e ↔
      ∃ p, maxByKeyLast (constraintL cs) = some p ∧
        e = .InsufficientFunds cs.selected_absolute_value p.2 p.1 := by
  constructor
  · intro h
    simp only [CoinSelector.finish] at h
    split at h
    case _ p heq =>
      cases h
      exact ⟨p, heq, rfl⟩
    case _ heq => exact Except.noConfusion h
  · rintro ⟨p, hp, rfl⟩
    simp only [CoinSelector.finish]
    split
    case _ q heq =>
      have h2 : maxByKeyLast (constraintL cs) = some q := heq
      rw [hp] at h2
      cases h2
      rfl
    case _ heq =>
      have h2 : maxByKeyLast (constraintL cs) = none := heq
      rw [hp] at h2
      exact Option.noConfusion h2

theorem constraint_deficit_tv (cs : CoinSelector) :
    cs.constraint_deficit .TargetValue =
      cs.opts.target_value - cs.selected_absolute_value := rfl

theorem constraint_deficit_tf (cs : CoinSelector) :
    cs.constraint_deficit .TargetFee =
      cs.opts.target_value +
        (F32.natMul cs.current_weight cs.opts.target_feerate).ceilToNat -
        cs.selected_absolute_value := rfl

theorem constraint_deficit_maf (cs : CoinSelector) :
    cs.constraint_deficit .MinAbsoluteFee =
      cs.opts.target_value + cs.opts.min_absolute_fee - cs.selected_absolute_value := rfl

theorem constraintL_empty_iff (cs : CoinSelector) :
    constraintL cs = [] ↔
      cs.constraint_deficit .TargetValue = 0 ∧
      cs.constraint_deficit .TargetFee = 0 ∧
      cs.constraint_deficit .MinAbsoluteFee = 0 := by
  unfold constraintL
  rw [List.filter_eq_nil_iff, constraint_deficit_tv, constraint_deficit_tf,
    constraint_deficit_maf]
  constructor
  · intro h
    have h1 := h (SelectionConstraint.TargetValue,
      cs.opts.target_value - cs.selected_absolute_value) (by simp)
    have h2 := h (SelectionConstraint.TargetFee,
      cs.opts.target_value +
        (F32.natMul cs.current_weight cs.opts.target_feerate).ceilToNat -
        cs.selected_absolute_value) (by simp)
    have h3 := h (SelectionConstraint.MinAbsoluteFee,
      cs.opts.target_value + cs.opts.min_absolute_fee - cs.selected_absolute_value) (by simp)
    simp only [decide_eq_true_eq] at h1 h2 h3
    omega
  · rintro ⟨h1, h2, h3⟩ p hp
    simp only [List.mem_cons, List.not_mem_nil, or_false] at hp
    rcases hp with rfl | rfl | rfl <;> simp [h1, h2, h3]

/-- C7: `finish()` fails iff one of the three constraints is unsatisfied for
the selected absolute value `S` (`S ≥ target_value`, `S ≥ target_value +
fee_without_drain`, `S ≥ target_value + min_absolute_fee`); on failure it
returns `InsufficientFunds` carrying `S`, the maximal deficit as `missing`,
and a constraint attaining that deficit. -/
theorem finish_insufficient_spec (cs : CoinSelector) :
    ((∃ e, cs.finish = .error e) ↔
      cs.selected_absolute_value < cs.opts.target_value ∨
      cs.selected_absolute_value <
        cs.opts.target_value +
          (F32.natMul cs.current_weight cs.opts.target_feerate).ceilToNat ∨
      cs.selected_absolute_value < cs.opts.target_value + cs.opts.min_absolute_fee) ∧
    ∀ s m c, cs.finish = .error (.InsufficientFunds s m c) →
      s = cs.selected_absolute_value ∧
      m = max (cs.constraint_deficit .TargetValue)
        (max (cs.constraint_deficit .TargetFee) (cs.constraint_deficit .MinAbsoluteFee)) ∧
      m = cs.constraint_deficit c ∧ 0 < m := by
  have hA := constraint_deficit_tv cs
  have hB := constraint_deficit_tf cs
  have hC := constraint_deficit_maf cs
  constructor
  · constructor
    · rintro ⟨e, he⟩
      obtain ⟨p, hp, -⟩ := (finish_error_iff cs e).mp he
      obtain ⟨hmem, -⟩ := maxByKeyLast_spec _ p hp
      unfold constraintL at hmem
      rw [List.mem_filter] at hmem
      obtain ⟨hmem, hpos⟩ := hmem
      rw [decide_eq_true_eq] at hpos
      simp only [List.mem_cons, List.not_mem_nil, or_false] at hmem
      rcases hmem with rfl | rfl | rfl <;> simp only at hpos <;> omega
    · intro hdisj
      rcases hcl : constraintL cs with _ | ⟨x, xs⟩
      · exfalso
        obtain ⟨h1, h2, h3⟩ := (constraintL_empty_iff cs).mp hcl
        rw [hA] at h1
        rw [hB] at h2
        rw [hC] at h3
        omega
      · rcases hm : maxByKeyLast (constraintL cs) with _ | p
        · rw [maxByKeyLast_eq_none_iff, hcl] at hm
          exact List.noConfusion hm
        · exact ⟨_, (finish_error_iff cs _).mpr ⟨p, hm, rfl⟩⟩
  · intro s m c h
    obtain ⟨p, hp, he⟩ := (finish_error_iff cs _).mp h
    obtain ⟨hs, hm, hc⟩ : s = cs.selected_absolute_value ∧ m = p.2 ∧ c = p.1 := by
      cases he
      exact ⟨rfl, rfl, rfl⟩
    subst hs hm hc
    obtain ⟨hmem, hbound⟩ := maxByKeyLast_spec _ p hp
    unfold constraintL at hmem
    rw [List.mem_filter] at hmem
    obtain ⟨hmem, hpos⟩ := hmem
    rw [decide_eq_true_eq] at hpos
    have hd : ∀ c', cs.constraint_deficit c' ≤ p.2 := by
      intro c'
      by_cases hpos' : 0 < cs.constraint_deficit c'
      · refine hbound (c', cs.constraint_deficit c') ?_
        unfold constraintL
        rw [List.mem_filter]
        refine ⟨?_, by simpa using hpos'⟩
        cases c'
        · rw [constraint_deficit_tv]
          simp
        · rw [constraint_deficit_tf]
          simp
        · rw [constraint_deficit_maf]
          simp
      · omega
    simp only [List.mem_cons, List.not_mem_nil, or_false] at hmem
    rcases hmem with rfl | rfl | rfl
    · exact ⟨rfl, le_antisymm (le_max_left _ _)
        (max_le (hd .TargetValue) (max_le (hd .TargetFee) (hd .MinAbsoluteFee))),
        rfl, hpos⟩
    · exact ⟨rfl, le_antisymm (le_max_of_le_right (le_max_left _ _))
        (max_le (hd .TargetValue) (max_le (hd .TargetFee) (hd .MinAbsoluteFee))),
        rfl, hpos⟩
    · exact ⟨rfl, le_antisymm (le_max_of_le_right (le_max_right _ _))
        (max_le (hd .TargetValue) (max_le (hd .TargetFee) (hd .MinAbsoluteFee))),
        rfl, hpos⟩

theorem insertStrategy_same (m : ExcessStrategyKind → Option ExcessStrategy)
    (k : ExcessStrategyKind) (v : ExcessStrategy) : insertStrategy m k v k = some v := by
  simp [insertStrategy]

theorem insertStrategy_other (m : ExcessStrategyKind → Option ExcessStrategy)
    (k : ExcessStrategyKind) (v : ExcessStrategy) (k' : ExcessStrategyKind) (h : k' ≠ k) :
    insertStrategy m k v k' = m k' := by
  simp [insertStrategy, h]

/-- C6: every successful `finish()` (in both source variants) contains the
`ToFee` strategy, whose fee is at least
`max(ceil(current_weight * target_feerate), min_absolute_fee)`. -/
theorem finish_toFee_spec (cs : CoinSelector) :
    (∀ sel, cs.finish = .ok sel →
      ∃ es, sel.excess_strategies .ToFee = some es ∧
        max (F32.natMul cs.current_weight cs.opts.target_feerate).ceilToNat
          cs.opts.min_absolute_fee ≤ es.fee) ∧
    ∀ sel, CoinSelectorV2.finish cs = .ok sel →
      ∃ es, sel.excess_strategies .ToFee = some es ∧
        max (F32.natMul cs.current_weight cs.opts.target_feerate).ceilToNat
          cs.opts.min_absolute_fee ≤ es.fee := by
  constructor
  · intro sel h
    simp only [CoinSelector.finish] at h
    split at h
    · exact Except.noConfusion h
    · cases h
      split_ifs <;>
      · simp only [insertStrategy]
        exact ⟨_, rfl, Nat.le_add_right _ _⟩
  · intro sel h
    simp only [CoinSelectorV2.finish] at h
    split at h
    · exact Except.noConfusion h
    · cases h
      split_ifs <;>
      · simp only [insertStrategy]
        exact ⟨_, rfl, Nat.le_add_right _ _⟩

/-- C1 (corrected): on every successful `finish()`, the `coin_select.rs`
variant emits the `ToDrain` strategy iff
`selected_abs - target_value ≥ fee_with_drain + min_drain_value` (with
`fee_with_drain` already raised to `min_absolute_fee`), with no further
condition; the `coin_select/coin_selector.rs` variant additionally requires
`fee_with_drain > min_absolute_fee`. -/
theorem finish_toDrain_spec (cs : CoinSelector) :
    (∀ sel, cs.finish = .ok sel →
      ((sel.excess_strategies .ToDrain).isSome = true ↔
        max (F32.natMul (cs.current_weight + cs.opts.drain_weight)
              cs.opts.target_feerate).ceilToNat cs.opts.min_absolute_fee +
            cs.opts.min_drain_value ≤
          cs.selected_absolute_value - cs.opts.target_value)) ∧
    ∀ sel, CoinSelectorV2.finish cs = .ok sel →
      ((sel.excess_strategies .ToDrain).isSome = true ↔
        cs.opts.min_absolute_fee <
            max (F32.natMul (cs.current_weight + cs.opts.drain_weight)
              cs.opts.target_feerate).ceilToNat cs.opts.min_absolute_fee ∧
          max (F32.natMul (cs.current_weight + cs.opts.drain_weight)
                cs.opts.target_feerate).ceilToNat cs.opts.min_absolute_fee +
              cs.opts.min_drain_value ≤
            cs.selected_absolute_value - cs.opts.target_value) := by
  constructor
  · intro sel h
    simp only [CoinSelector.finish] at h
    split at h
    · exact Except.noConfusion h
    · cases h
      split_ifs with h1 h2 <;> simp_all [insertStrategy]
  · intro sel h
    simp only [CoinSelectorV2.finish] at h
    split at h
    · exact Except.noConfusion h
    · cases h
      split_ifs with h1 h2 <;> simp_all [insertStrategy]

/-- Whether a `finish` result is a success. -/
def isOk (r : Except SelectionFailure Selection) : Bool :=
  match r with
  | .ok _ => true
  | .error _ => false

/-- Strategy lookup on a `finish` result (`none` on failure). -/
def okStrategies (r : Except SelectionFailure Selection) (k : ExcessStrategyKind) :
    Option ExcessStrategy :=
  match r with
  | .ok sel => sel.excess_strategies k
  | .error _ => none

/-- The error of a `finish` result, if any. -/
def errOf (r : Except SelectionFailure Selection) : Option SelectionFailure :=
  match r with
  | .error e => some e
  | .ok _ => none

/-- A selector with a single selected candidate of value 100 and all-zero
options: `finish` succeeds on it. -/
def csA : CoinSelector := ⟨[⟨100, 1, 1, false⟩], {0}, opts0⟩

/-- An empty selector with target 100: `finish` fails on it. -/
def csB : CoinSelector := ⟨[], ∅, { opts0 with target_value := 100 }⟩

/-- Witness for C6 at the concrete selector `csA`. -/
theorem finish_toFee_spec_witness :
    ∃ es, okStrategies (CoinSelector.finish csA) .ToFee = some es ∧
      max (F32.natMul csA.current_weight csA.opts.target_feerate).ceilToNat
        csA.opts.min_absolute_fee ≤ es.fee := by
  have hok : isOk (CoinSelector.finish csA) = true := by decide
  rcases hr : CoinSelector.finish csA with e | sel
  · rw [hr] at hok
    exact Bool.noConfusion hok
  · obtain ⟨es, hes, hfee⟩ := (finish_toFee_spec csA).1 sel hr
    exact ⟨es, hes, hfee⟩

/-- Witness for C7 at the concrete empty selector `csB`. -/
theorem finish_insufficient_spec_witness :
    (∃ e, CoinSelector.finish csB = .error e) ∧
    0 = csB.selected_absolute_value ∧
    100 = max (csB.constraint_deficit .TargetValue)
      (max (csB.constraint_deficit .TargetFee) (csB.constraint_deficit .MinAbsoluteFee)) ∧
    100 = csB.constraint_deficit .MinAbsoluteFee ∧ 0 < (100 : ℕ) := by
  have he : errOf (CoinSelector.finish csB) =
      some (.InsufficientFunds 0 100 .MinAbsoluteFee) := by decide
  rcases hr : CoinSelector.finish csB with e | sel
  · rw [hr] at he
    simp only [errOf, Option.some.injEq] at he
    subst he
    exact ⟨⟨_, hr⟩, (finish_insufficient_spec csB).2 0 100 .MinAbsoluteFee hr⟩
  · rw [hr] at he
    exact Option.noConfusion he

/-- Witness for C1's amended statement: on `csA`, the `coin_select.rs` variant
emits `ToDrain` (the residue condition holds there). -/
theorem finish_toDrain_spec_witness :
    (okStrategies (CoinSelector.finish csA) .ToDrain).isSome = true := by
  have hok : isOk (CoinSelector.finish csA) = true := by decide
  rcases hr : CoinSelector.finish csA with e | sel
  · rw [hr] at hok
    exact Bool.noConfusion hok
  · exact ((finish_toDrain_spec csA).1 sel hr).mpr (by decide)

/-- Counterexample for C1 as stated: on `csA` the
`coin_select/coin_selector.rs` variant of `finish()` succeeds and the residue
condition `selected_abs - target_value ≥ fee_with_drain + min_drain_value`
holds, yet no `ToDrain` strategy is emitted (the extra gate
`fee_with_drain > min_absolute_fee` fails), so the residue condition is not
the only condition gating `ToDrain`. -/
theorem finish_toDrain_cex :
    isOk (CoinSelectorV2.finish csA) = true ∧
    max (F32.natMul (csA.current_weight + csA.opts.drain_weight)
          csA.opts.target_feerate).ceilToNat csA.opts.min_absolute_fee +
        csA.opts.min_drain_value ≤
      csA.selected_absolute_value - csA.opts.target_value ∧
    okStrategies (CoinSelectorV2.finish csA) .ToDrain = none := by
  decide

end CoinSelect

namespace BdkChain

/-! ## Claims C4, C5, C8 — the keychain txout index -/

theorem DerivationAdditions.append_empty {K : Type} (a : DerivationAdditions K) :
    a.append DerivationAdditions.empty = a := by
  funext k
  simp only [DerivationAdditions.append, DerivationAdditions.empty]
  rcases a k with _ | x <;> rfl

theorem takeWhile_wildcard {S : Type} (d : Descriptor S) (hw : d.has_wildcard = true)
    (l : List ℕ) : l.takeWhile (fun i => d.has_wildcard || i == 0) = l := by
  induction l with
  | nil => rfl
  | cons x xs ih => simp [List.takeWhile_cons, hw, ih]

theorem range'_takeWhile_lt (m : ℕ) :
    ∀ (n a : ℕ), (List.range' a n).takeWhile (fun i => decide (i < m)) =
      List.range' a (min n (m - a)) := by
  intro n
  induction n with
  | zero => intro a; simp
  | succ n ih =>
    intro a
    rw [List.range'_succ, List.takeWhile_cons]
    by_cases ha : a < m
    · rw [if_pos (by simpa using ha), ih (a + 1)]
      have : min (n + 1) (m - a) = min n (m - (a + 1)) + 1 := by omega
      rw [this, List.range'_succ]
    · rw [if_neg (by simpa using ha)]
      have : min (n + 1) (m - a) = 0 := by omega
      rw [this]
      rfl

theorem mapWhileDerive_all {S : Type} (d : Descriptor S) (l : List ℕ)
    (h : ∀ i ∈ l, i < d.derivableCount) :
    mapWhileDerive d l = l.map (fun i => (i, d.spkAt i)) := by
  induction l with
  | nil => rfl
  | cons x xs ih =>
    have hx : d.derive x = some (d.spkAt x) := by
      unfold Descriptor.derive
      rw [if_pos (h x (List.mem_cons_self _ _))]
    simp only [mapWhileDerive, hx, List.map_cons]
    rw [ih (fun i hi => h i (List.mem_cons_of_mem _ hi))]

theorem foldl_pair {α β γ : Type} (f : α → γ → α) (g : β → γ → β) (l : List γ) :
    ∀ (a : α) (b : β),
      l.foldl (fun p q => (f p.1 q, g p.2 q)) (a, b) = (l.foldl f a, l.foldl g b) := by
  induction l with
  | nil => intro a b; rfl
  | cons x xs ih => intro a b; rw [List.foldl_cons, List.foldl_cons, List.foldl_cons, ih]

theorem foldl_insert_spk {K S O : Type} [DecidableEq K] [DecidableEq S] (k : K)
    (f : ℕ → S) (l : List ℕ) :
    ∀ (x : SpkTxOutIndex (K × ℕ) S O) (k' : K) (j : ℕ),
      ((l.map (fun i => (i, f i))).foldl
        (fun acc q => acc.insert_script_pubkey (k, q.1) q.2) x).script_pubkeys (k', j) =
      if k' = k ∧ j ∈ l then some (f j) else x.script_pubkeys (k', j) := by
  induction l with
  | nil =>
    intro x k' j
    simp
  | cons i is ih =>
    intro x k' j
    rw [List.map_cons, List.foldl_cons, ih]
    by_cases hmem : k' = k ∧ j ∈ is
    · rw [if_pos hmem, if_pos ⟨hmem.1, List.mem_cons_of_mem _ hmem.2⟩]
    · rw [if_neg hmem]
      by_cases hji : k' = k ∧ j = i
      · rw [if_pos ⟨hji.1, by rw [hji.2]; exact List.mem_cons_self _ _⟩]
        simp only [SpkTxOutIndex.insert_script_pubkey]
        rw [if_pos (by rw [hji.1, hji.2]), hji.2]
      · rw [if_neg (by
          rintro ⟨hk, hj⟩
          rcases List.mem_cons.mp hj with rfl | hj
          · exact hji ⟨hk, rfl⟩
          · exact hmem ⟨hk, hj⟩)]
        simp only [SpkTxOutIndex.insert_script_pubkey]
        rw [if_neg (by
          intro hc
          rw [Prod.mk.injEq] at hc
          exact hji ⟨hc.1, hc.2⟩)]

theorem foldl_reveal_range (t : ℕ) :
    ∀ (n a : ℕ) (r0 : Option ℕ),
      (List.range' a n).foldl (fun acc i => if i ≤ t then some i else acc) r0 =
        if a ≤ t ∧ 0 < n then some (min t (a + n - 1)) else r0 := by
  intro n
  induction n with
  | zero => intro a r0; simp
  | succ n ih =>
    intro a r0
    rw [List.range'_succ, List.foldl_cons, ih]
    by_cases hat : a ≤ t
    · rw [if_pos hat]
      by_cases hn : a + 1 ≤ t ∧ 0 < n
      · rw [if_pos hn, if_pos ⟨hat, Nat.succ_pos n⟩]
        congr 1
        omega
      · rw [if_neg hn, if_pos ⟨hat, Nat.succ_pos n⟩]
        congr 1
        omega
    · rw [if_neg hat, if_neg (by rintro ⟨h, -⟩; omega),
        if_neg (by rintro ⟨h, -⟩; omega)]

end BdkChain

namespace BdkChain

theorem reveal_to_clamp {K S O : Type} [DecidableEq K] [DecidableEq S]
    (st : KeychainTxOutIndex K S O) (keychain : K) (t : ℕ) (d : Descriptor S)
    (hreg : st.keychains keychain = some d) (hw : d.has_wildcard = false) :
    st.reveal_to keychain t = st.reveal_to keychain 0 := by
  simp only [KeychainTxOutIndex.reveal_to, hreg]
  rw [show (if d.has_wildcard then t else 0) = 0 from by simp [hw],
    show (if d.has_wildcard then 0 else 0) = 0 from by simp]

theorem reveal_to_early {K S O : Type} [DecidableEq K] [DecidableEq S]
    (st : KeychainTxOutIndex K S O) (keychain : K) (t : ℕ) (d : Descriptor S)
    (hreg : st.keychains keychain = some d)
    (hb : (if d.has_wildcard then t else 0) < (st.last_revealed keychain).elim 0 (· + 1)) :
    st.reveal_to keychain t = some (DerivationAdditions.empty, st) := by
  simp only [KeychainTxOutIndex.reveal_to, hreg]
  rw [if_pos hb]

theorem reveal_to_main {K S O : Type} [DecidableEq K] [DecidableEq S]
    (st : KeychainTxOutIndex K S O) (keychain : K) (t : ℕ) (d : Descriptor S)
    (hreg : st.keychains keychain = some d)
    (hdc : d.derivableCount = DERIVED_KEY_COUNT)
    (hw : d.has_wildcard = true)
    (hnext : (st.last_revealed keychain).elim 0 (· + 1) ≤ t)
    (ht : t < DERIVED_KEY_COUNT) :
    ∃ st', st.reveal_to keychain t =
        some (DerivationAdditions.single keychain t, st') ∧
      st'.last_revealed keychain = some t ∧
      (∀ k', k' ≠ keychain → st'.last_revealed k' = st.last_revealed k') ∧
      (∀ i, (st.last_revealed keychain).elim 0 (· + 1) + (st.lookahead keychain).getD 0 ≤ i →
        i ≤ t + (st.lookahead keychain).getD 0 → i < DERIVED_KEY_COUNT →
        st'.inner.script_pubkeys (keychain, i) = some (d.spkAt i)) ∧
      (∀ k' j, k' ≠ keychain ∨
          j < (st.last_revealed keychain).elim 0 (· + 1) + (st.lookahead keychain).getD 0 ∨
          t + (st.lookahead keychain).getD 0 < j →
        st'.inner.script_pubkeys (k', j) = st.inner.script_pubkeys (k', j)) ∧
      st'.keychains = st.keychains ∧ st'.lookahead = st.lookahead := by
  simp only [KeychainTxOutIndex.reveal_to, hreg, hw, if_true]
  rw [if_neg (not_lt.mpr hnext)]
  set next := (st.last_revealed keychain).elim 0 (· + 1) with hnextd
  set W := (st.lookahead keychain).getD 0 with hWd
  set n := min (t + W + 1 - (next + W)) (DERIVED_KEY_COUNT - (next + W)) with hnd
  have hsteps : range_descriptor_spks d (rangeIncl (next + W) (t + W)) =
      (List.range' (next + W) n).map (fun i => (i, d.spkAt i)) := by
    unfold range_descriptor_spks rangeIncl
    rw [takeWhile_wildcard d hw, range'_takeWhile_lt]
    refine mapWhileDerive_all d _ ?_
    intro i hi
    rw [hdc]
    have := List.mem_range'_1.mp hi
    omega
  rw [hsteps, foldl_pair
    (fun (x : SpkTxOutIndex (K × ℕ) S O) (q : ℕ × S) =>
      x.insert_script_pubkey (keychain, q.1) q.2)
    (fun (r : Option ℕ) (q : ℕ × S) => if q.1 ≤ t then some q.1 else r)]
  have hrev : ((List.range' (next + W) n).map (fun i => (i, d.spkAt i))).foldl
      (fun (r : Option ℕ) (q : ℕ × S) => if q.1 ≤ t then some q.1 else r)
      (if t < next + W then some t else none) = some t := by
    rw [List.foldl_map, foldl_reveal_range]
    unfold DERIVED_KEY_COUNT at hnd ht
    split_ifs with hc hc2
    · congr 1
      omega
    · rfl
    · exfalso
      omega
  rw [hrev]
  refine ⟨_, rfl, ?_, ?_, ?_, ?_, rfl, rfl⟩
  · simp
  · intro k' hk
    simp [hk]
  · intro i h1 h2 h3
    rw [foldl_insert_spk]
    rw [if_pos ⟨rfl, List.mem_range'_1.mpr (by
      unfold DERIVED_KEY_COUNT at hnd h3
      omega)⟩]
  · intro k' j hj
    rw [foldl_insert_spk]
    rw [if_neg (by
      rintro ⟨rfl, hmem⟩
      have := List.mem_range'_1.mp hmem
      unfold DERIVED_KEY_COUNT at hnd
      rcases hj with hj | hj | hj
      · exact hj rfl
      · omega
      · omega)]

theorem mapWhileDerive_range {S : Type} (d : Descriptor S) :
    ∀ (m a : ℕ), mapWhileDerive d (List.range' a m) =
      (List.range' a (min m (d.derivableCount - a))).map (fun i => (i, d.spkAt i)) := by
  intro m
  induction m with
  | zero => intro a; simp [mapWhileDerive]
  | succ m ih =>
    intro a
    rcases hda : d.derive a with _ | s
    · have haD : d.derivableCount ≤ a := by
        by_contra hc
        unfold Descriptor.derive at hda
        rw [if_pos (not_le.mp hc)] at hda
        cases hda
      rw [List.range'_succ]
      simp only [mapWhileDerive, hda]
      rw [show min (m + 1) (d.derivableCount - a) = 0 from by omega]
      rfl
    · have haD : a < d.derivableCount := by
        by_contra hc
        unfold Descriptor.derive at hda
        rw [if_neg hc] at hda
        cases hda
      have hs : s = d.spkAt a := by
        unfold Descriptor.derive at hda
        rw [if_pos haD] at hda
        exact (Option.some.inj hda).symm
      rw [List.range'_succ]
      simp only [mapWhileDerive, hda]
      rw [ih (a + 1), hs]
      rw [show min (m + 1) (d.derivableCount - a) = min m (d.derivableCount - (a + 1)) + 1
        from by omega]
      rw [List.range'_succ, List.map_cons]

theorem reveal_to_advance {K S O : Type} [DecidableEq K] [DecidableEq S]
    (st : KeychainTxOutIndex K S O) (keychain : K) (t : ℕ) (d : Descriptor S)
    (hreg : st.keychains keychain = some d)
    (hw : d.has_wildcard = true)
    (hnext : (st.last_revealed keychain).elim 0 (· + 1) ≤ t)
    (hcase : t < (st.last_revealed keychain).elim 0 (· + 1) + (st.lookahead keychain).getD 0 ∨
      (st.last_revealed keychain).elim 0 (· + 1) + (st.lookahead keychain).getD 0 <
        min d.derivableCount DERIVED_KEY_COUNT) :
    ∃ st', st.reveal_to keychain t =
        some (DerivationAdditions.single keychain
          (if t < (st.last_revealed keychain).elim 0 (· + 1) + (st.lookahead keychain).getD 0
            then t else min t (min d.derivableCount DERIVED_KEY_COUNT - 1)), st') ∧
      st'.last_revealed keychain =
        some (if t < (st.last_revealed keychain).elim 0 (· + 1) + (st.lookahead keychain).getD 0
          then t else min t (min d.derivableCount DERIVED_KEY_COUNT - 1)) ∧
      (∀ k', k' ≠ keychain → st'.last_revealed k' = st.last_revealed k') ∧
      (∀ i, (st.last_revealed keychain).elim 0 (· + 1) + (st.lookahead keychain).getD 0 ≤ i →
        i ≤ t + (st.lookahead keychain).getD 0 →
        i < min d.derivableCount DERIVED_KEY_COUNT →
        st'.inner.script_pubkeys (keychain, i) = some (d.spkAt i)) ∧
      (∀ k' j, k' ≠ keychain ∨
          j < (st.last_revealed keychain).elim 0 (· + 1) + (st.lookahead keychain).getD 0 ∨
          t + (st.lookahead keychain).getD 0 < j ∨
          min d.derivableCount DERIVED_KEY_COUNT ≤ j →
        st'.inner.script_pubkeys (k', j) = st.inner.script_pubkeys (k', j)) ∧
      st'.keychains = st.keychains ∧ st'.lookahead = st.lookahead := by
  simp only [KeychainTxOutIndex.reveal_to, hreg, hw, if_true]
  rw [if_neg (not_lt.mpr hnext)]
  set next := (st.last_revealed keychain).elim 0 (· + 1) with hnextd
  set W := (st.lookahead keychain).getD 0 with hWd
  set M := min d.derivableCount DERIVED_KEY_COUNT with hMd
  set n := min (t + W + 1 - (next + W)) (M - (next + W)) with hnd
  have hsteps : range_descriptor_spks d (rangeIncl (next + W) (t + W)) =
      (List.range' (next + W) n).map (fun i => (i, d.spkAt i)) := by
    unfold range_descriptor_spks rangeIncl
    rw [takeWhile_wildcard d hw, range'_takeWhile_lt, mapWhileDerive_range]
    congr 2
    rw [hnd, hMd]
    omega
  rw [hsteps, foldl_pair
    (fun (x : SpkTxOutIndex (K × ℕ) S O) (q : ℕ × S) =>
      x.insert_script_pubkey (keychain, q.1) q.2)
    (fun (r : Option ℕ) (q : ℕ × S) => if q.1 ≤ t then some q.1 else r)]
  have hrev : ((List.range' (next + W) n).map (fun i => (i, d.spkAt i))).foldl
      (fun (r : Option ℕ) (q : ℕ × S) => if q.1 ≤ t then some q.1 else r)
      (if t < next + W then some t else none) =
      some (if t < next + W then t else min t (M - 1)) := by
    rw [List.foldl_map, foldl_reveal_range]
    by_cases hlt : t < next + W
    · rw [if_neg (by rintro ⟨h1, -⟩; omega), if_pos hlt, if_pos hlt]
    · have hge : next + W ≤ t := not_lt.mp hlt
      have hM : next + W < M := by
        rcases hcase with hc | hc
        · omega
        · exact hc
      rw [if_pos ⟨hge, by rw [hnd]; omega⟩, if_neg hlt]
      congr 1
      rw [hnd]
      omega
  rw [hrev]
  refine ⟨_, rfl, ?_, ?_, ?_, ?_, rfl, rfl⟩
  · simp
  · intro k' hk
    simp [hk]
  · intro i h1 h2 h3
    rw [foldl_insert_spk]
    rw [if_pos ⟨rfl, List.mem_range'_1.mpr (by
      constructor
      · exact h1
      · rw [hnd]
        omega)⟩]
  · intro k' j hj
    rw [foldl_insert_spk]
    rw [if_neg (by
      rintro ⟨rfl, hmem⟩
      have := List.mem_range'_1.mp hmem
      rw [hnd] at this
      rcases hj with hj | hj | hj | hj
      · exact hj rfl
      · omega
      · omega
      · omega)]

theorem reveal_to_failure {K S O : Type} [DecidableEq K] [DecidableEq S]
    (st : KeychainTxOutIndex K S O) (keychain : K) (t : ℕ) (d : Descriptor S)
    (hreg : st.keychains keychain = some d)
    (hw : d.has_wildcard = true)
    (hge : (st.last_revealed keychain).elim 0 (· + 1) + (st.lookahead keychain).getD 0 ≤ t)
    (hM : min d.derivableCount DERIVED_KEY_COUNT ≤
      (st.last_revealed keychain).elim 0 (· + 1) + (st.lookahead keychain).getD 0) :
    st.reveal_to keychain t = some (DerivationAdditions.empty, st) := by
  have hnext : (st.last_revealed keychain).elim 0 (· + 1) ≤ t :=
    le_trans (Nat.le_add_right _ _) hge
  simp only [KeychainTxOutIndex.reveal_to, hreg, hw, if_true]
  rw [if_neg (not_lt.mpr hnext)]
  set next := (st.last_revealed keychain).elim 0 (· + 1) with hnextd
  set W := (st.lookahead keychain).getD 0 with hWd
  have hsteps : range_descriptor_spks d (rangeIncl (next + W) (t + W)) = [] := by
    unfold range_descriptor_spks rangeIncl
    rw [takeWhile_wildcard d hw, range'_takeWhile_lt, mapWhileDerive_range]
    rw [show min (min (t + W + 1 - (next + W)) (DERIVED_KEY_COUNT - (next + W)))
        (d.derivableCount - (next + W)) = 0 from by omega]
    rfl
  rw [hsteps]
  rw [show (if t < next + W then some t else (none : Option ℕ)) = none from by
    rw [if_neg (by omega)]]
  rfl

/-- C4 (corrected): `reveal_to(keychain, target)` clamps the target to 0 for a
non-wildcard descriptor and does nothing when the (clamped) target is below
`last_revealed + 1`.  Otherwise, with `next = last_revealed + 1` (0 when
unset), lookahead `W` and the derivability cut-off `M = min derivableCount
2^31`: if `target < next + W` (the target is already stored by lookahead),
`last_revealed` becomes `target` and the additions are `{keychain: target}`;
if `next + W ≤ target` and the enumeration of `[next+W, target+W]` derives its
first index (`next + W < M`), the derived scripts are inserted exactly for the
indices of `[next+W, target+W]` below `M`, `last_revealed` becomes
`min target (M - 1)` - the largest derivable index `≤ target` - and the
additions are that singleton; but if derivation fails already at `next + W`
(`M ≤ next + W`), the state is returned unchanged with empty additions, even
when derivable indexes `≤ target` beyond `last_revealed` exist - the claimed
"largest derivable index ≤ target" update does not happen on that path. -/
theorem reveal_to_spec {K S O : Type} [DecidableEq K] [DecidableEq S]
    (st : KeychainTxOutIndex K S O) (keychain : K) (t : ℕ) (d : Descriptor S)
    (hreg : st.keychains keychain = some d) :
    (d.has_wildcard = false → st.reveal_to keychain t = st.reveal_to keychain 0) ∧
    ((if d.has_wildcard then t else 0) < (st.last_revealed keychain).elim 0 (· + 1) →
      st.reveal_to keychain t = some (DerivationAdditions.empty, st)) ∧
    (d.has_wildcard = true →
      (st.last_revealed keychain).elim 0 (· + 1) ≤ t →
      t < (st.last_revealed keychain).elim 0 (· + 1) + (st.lookahead keychain).getD 0 →
      ∃ st', st.reveal_to keychain t =
          some (DerivationAdditions.single keychain t, st') ∧
        st'.last_revealed keychain = some t ∧
        (∀ k', k' ≠ keychain → st'.last_revealed k' = st.last_revealed k') ∧
        st'.keychains = st.keychains ∧ st'.lookahead = st.lookahead) ∧
    (d.has_wildcard = true →
      (st.last_revealed keychain).elim 0 (· + 1) + (st.lookahead keychain).getD 0 ≤ t →
      (st.last_revealed keychain).elim 0 (· + 1) + (st.lookahead keychain).getD 0 <
        min d.derivableCount DERIVED_KEY_COUNT →
      ∃ st', st.reveal_to keychain t =
          some (DerivationAdditions.single keychain
            (min t (min d.derivableCount DERIVED_KEY_COUNT - 1)), st') ∧
        st'.last_revealed keychain =
          some (min t (min d.derivableCount DERIVED_KEY_COUNT - 1)) ∧
        (∀ k', k' ≠ keychain → st'.last_revealed k' = st.last_revealed k') ∧
        (∀ i, (st.last_revealed keychain).elim 0 (· + 1) + (st.lookahead keychain).getD 0 ≤ i →
          i ≤ t + (st.lookahead keychain).getD 0 →
          i < min d.derivableCount DERIVED_KEY_COUNT →
          st'.inner.script_pubkeys (keychain, i) = some (d.spkAt i)) ∧
        (∀ k' j, k' ≠ keychain ∨
            j < (st.last_revealed keychain).elim 0 (· + 1) + (st.lookahead keychain).getD 0 ∨
            t + (st.lookahead keychain).getD 0 < j ∨
            min d.derivableCount DERIVED_KEY_COUNT ≤ j →
          st'.inner.script_pubkeys (k', j) = st.inner.script_pubkeys (k', j)) ∧
        st'.keychains = st.keychains ∧ st'.lookahead = st.lookahead) ∧
    (d.has_wildcard = true →
      (st.last_revealed keychain).elim 0 (· + 1) + (st.lookahead keychain).getD 0 ≤ t →
      min d.derivableCount DERIVED_KEY_COUNT ≤
        (st.last_revealed keychain).elim 0 (· + 1) + (st.lookahead keychain).getD 0 →
      st.reveal_to keychain t = some (DerivationAdditions.empty, st)) := by
  refine ⟨fun hw => reveal_to_clamp st keychain t d hreg hw,
    fun hb => reveal_to_early st keychain t d hreg hb, ?_, ?_,
    fun hw hge hM => reveal_to_failure st keychain t d hreg hw hge hM⟩
  · intro hw hnext hlt
    obtain ⟨st', h1, h2, h3, -, -, h6, h7⟩ :=
      reveal_to_advance st keychain t d hreg hw hnext (Or.inl hlt)
    rw [if_pos hlt] at h1 h2
    exact ⟨st', h1, h2, h3, h6, h7⟩
  · intro hw hge hM
    have hnext : (st.last_revealed keychain).elim 0 (· + 1) ≤ t :=
      le_trans (Nat.le_add_right _ _) hge
    obtain ⟨st', h1, h2, h3, h4, h5, h6, h7⟩ :=
      reveal_to_advance st keychain t d hreg hw hnext (Or.inr hM)
    rw [if_neg (not_lt.mpr hge)] at h1 h2
    exact ⟨st', h1, h2, h3, h4, h5, h6, h7⟩

/-- A wildcard descriptor over `ℕ` scripts, derivable at every non-hardened
index. -/
def descW : Descriptor ℕ := ⟨true, fun i => i, DERIVED_KEY_COUNT⟩

/-- A fresh single-keychain index over `descW` with empty storage. -/
def stW : KeychainTxOutIndex Unit ℕ ℕ :=
  { inner :=
      { script_pubkeys := fun _ => none, spk_indices := fun _ => none,
        unused := fun _ => false, outputs := fun _ _ => false }
    keychains := fun _ => some descW
    last_revealed := fun _ => none
    lookahead := fun _ => none }

/-- A wildcard descriptor over `ℕ` scripts whose derivation fails from
index 5 on. -/
def descF : Descriptor ℕ := ⟨true, fun i => i, 5⟩

/-- A spec-consistent index over `descF`: nothing revealed, lookahead 5, the
materialized scripts `[0, W-1] = 0..4` stored. -/
def stF : KeychainTxOutIndex Unit ℕ ℕ :=
  { inner :=
      { script_pubkeys := fun q => if q.2 < 5 then some q.2 else none,
        spk_indices := fun s => if s < 5 then some ((), s) else none,
        unused := fun q => decide (q.2 < 5),
        outputs := fun _ _ => false }
    keychains := fun _ => some descF
    last_revealed := fun _ => none
    lookahead := fun _ => some 5 }

/-- Witness for C4: the lookahead-extension conjunct at the fresh index `stW`
with target 2, and the derivation-failure conjunct at `stF` with target 7. -/
theorem reveal_to_spec_witness :
    (∃ st', stW.reveal_to () 2 = some (DerivationAdditions.single () 2, st') ∧
      st'.last_revealed () = some 2) ∧
    stF.reveal_to () 7 = some (DerivationAdditions.empty, stF) := by
  have h4 := (reveal_to_spec stW () 2 descW rfl).2.2.2.1 rfl (by decide) (by decide)
  obtain ⟨st', h1, h2, -⟩ := h4
  exact ⟨⟨st', h1, h2⟩,
    (reveal_to_spec stF () 7 descF rfl).2.2.2.2 rfl (by decide) (by decide)⟩

/-- Counterexample for C4 as stated: at `stF` (nothing revealed, lookahead 5,
derivation failing from index 5 on), `reveal_to((), 7)` returns empty
additions and leaves `last_revealed = None`, although index 4 is derivable
and `4 ≤ 7` - the new `last_revealed` does *not* become the largest derivable
index `≤ target` on the derivation-failure path. -/
theorem reveal_to_failure_cex :
    (stF.reveal_to () 7).map (fun p => (p.1 (), p.2.last_revealed ())) =
      some ((none : Option ℕ), (none : Option ℕ)) ∧
    descF.derive 4 = some 4 ∧ (4 : ℕ) ≤ 7 ∧ stF.last_revealed () = none := by
  decide

end BdkChain


namespace BdkChain

theorem rangeIncl_self (a : ℕ) : rangeIncl a a = [a] := by
  unfold rangeIncl
  have h : a + 1 - a = 1 := by omega
  rw [h]
  rfl

theorem reveal_to_nonwild {K S O : Type} [DecidableEq K] [DecidableEq S]
    (st : KeychainTxOutIndex K S O) (keychain : K) (t : ℕ) (d : Descriptor S)
    (hreg : st.keychains keychain = some d)
    (hw : d.has_wildcard = false)
    (hL : st.last_revealed keychain = none)
    (hdcpos : 0 < d.derivableCount) :
    ∃ st', st.reveal_to keychain t = some (DerivationAdditions.single keychain 0, st') ∧
      st'.last_revealed keychain = some 0 := by
  simp only [KeychainTxOutIndex.reveal_to, hreg, hw, hL, Bool.false_eq_true, if_false,
    Option.elim_none, Option.elim]
  rw [if_neg (by omega)]
  set W := (st.lookahead keychain).getD 0 with hWd
  rcases Nat.eq_zero_or_pos W with hW0 | hWpos
  · have hsteps : range_descriptor_spks d (rangeIncl (0 + W) (0 + W)) = [(0, d.spkAt 0)] := by
      rw [hW0]
      rw [show (0 + 0 : ℕ) = 0 from rfl, rangeIncl_self]
      unfold range_descriptor_spks
      rw [show List.takeWhile (fun i => d.has_wildcard || i == 0) [0] = [0] from by simp [hw]]
      rw [show List.takeWhile (fun i => decide (i < DERIVED_KEY_COUNT)) [0] = [0] from by
        simp [DERIVED_KEY_COUNT]]
      unfold mapWhileDerive Descriptor.derive
      rw [if_pos hdcpos]
      rfl
    rw [hsteps]
    refine ⟨_, rfl, by simp⟩
  · have hsteps : range_descriptor_spks d (rangeIncl (0 + W) (0 + W)) = [] := by
      rw [show (0 + W : ℕ) = W from by omega, rangeIncl_self]
      unfold range_descriptor_spks
      rw [show List.takeWhile (fun i => d.has_wildcard || i == 0) [W] = [] from by
        simp [hw]
        omega]
      rfl
    rw [hsteps]
    rw [show (if (0 : ℕ) < 0 + W then some (0 : ℕ) else none) = some 0 from by
      rw [if_pos (by omega)]]
    refine ⟨_, rfl, by simp⟩

end BdkChain

namespace BdkChain

/-- The S4 index: wildcard keychain, lookahead 5, nothing revealed, scripts
0..4 stored. -/
def stS4 : KeychainTxOutIndex Unit ℕ ℕ :=
  { inner :=
      { script_pubkeys := fun q => if q.2 < 5 then some q.2 else none,
        spk_indices := fun s => if s < 5 then some ((), s) else none,
        unused := fun q => decide (q.2 < 5),
        outputs := fun _ _ => false }
    keychains := fun _ => some descW
    last_revealed := fun _ => none
    lookahead := fun _ => some 5 }

/-- C5 (confirmed, spec-modelled): for a txout whose script pubkey is
indexed under `(keychain, i)`, `scan_txout` first records the outpoint and
marks the entry used in the inner index, then behaves as `reveal_to keychain
i` on the updated state; on success `last_revealed` ends at least at `i`,
and in the S4 scenario (stored 0..4, lookahead 5, txout at index 3) the
result reveals up to 3 and stores scripts exactly up to index 8. -/
theorem scan_txout_spec {K S O : Type} [DecidableEq K] [DecidableEq S] [DecidableEq O]
    (st : KeychainTxOutIndex K S O) (op : O) (txout : TxOutS S) (keychain : K) (i : ℕ)
    (d : Descriptor S)
    (hmatch : st.inner.spk_indices txout.script_pubkey = some (keychain, i))
    (hreg : st.keychains keychain = some d)
    (hdc : d.derivableCount = DERIVED_KEY_COUNT)
    (hok : d.has_wildcard = true ∨ i = 0)
    (hcap : i < DERIVED_KEY_COUNT) :
    (st.scan_txout op txout =
      KeychainTxOutIndex.reveal_to
        { st with inner := (st.inner.scan_txout op txout).2 } keychain i) ∧
    (∀ a st', st.scan_txout op txout = some (a, st') →
      ∃ r, st'.last_revealed keychain = some r ∧ i ≤ r) ∧
    (∃ st', stS4.scan_txout (7 : ℕ) ⟨3⟩ =
        some (DerivationAdditions.single () 3, st') ∧
      st'.last_revealed () = some 3 ∧
      ∀ j, j ≤ 9 → (st'.inner.script_pubkeys ((), j) = if j ≤ 8 then some j else none)) := by
  have heq : st.scan_txout op txout =
      KeychainTxOutIndex.reveal_to
        { st with inner := (st.inner.scan_txout op txout).2 } keychain i := by
    simp only [KeychainTxOutIndex.scan_txout, SpkTxOutIndex.scan_txout, hmatch]
  refine ⟨heq, ?_, ?_⟩
  · intro a st' h
    rw [heq] at h
    have hreg' : ({ st with inner := (st.inner.scan_txout op txout).2 } :
        KeychainTxOutIndex K S O).keychains keychain = some d := hreg
    rcases hwB : d.has_wildcard with _ | _
    · -- no wildcard; hence i = 0
      have hz : i = 0 := by
        rcases hok with hok | hok
        · rw [hwB] at hok
          exact Bool.noConfusion hok
        · exact hok
      subst hz
      rcases hLr : st.last_revealed keychain with _ | r
      · obtain ⟨st'', heq2, hL2⟩ := reveal_to_nonwild
          { st with inner := (st.inner.scan_txout op txout).2 } keychain 0 d hreg' hwB hLr
          (by rw [hdc]; unfold DERIVED_KEY_COUNT; omega)
        rw [heq2] at h
        cases h
        exact ⟨0, hL2, le_refl 0⟩
      · rw [reveal_to_early _ keychain 0 d hreg' (by
          rw [hwB]
          show (0 : ℕ) < (st.last_revealed keychain).elim 0 (· + 1)
          rw [hLr]
          simp)] at h
        cases h
        refine ⟨r, by first | rfl | exact hLr, Nat.zero_le r⟩
    · -- wildcard
      by_cases hlt : i < (st.last_revealed keychain).elim 0 (· + 1)
      · rw [reveal_to_early _ keychain i d hreg' (by
          rw [hwB]
          simpa using hlt)] at h
        cases h
        rcases hLr : st.last_revealed keychain with _ | r
        · rw [hLr] at hlt
          simp at hlt
        · refine ⟨r, rfl, ?_⟩
          rw [hLr] at hlt
          simpa using Nat.lt_succ_iff.mp hlt
      · obtain ⟨st'', heq2, hL2, -⟩ := reveal_to_main
          { st with inner := (st.inner.scan_txout op txout).2 } keychain i d hreg' hdc hwB
          (not_lt.mp hlt) hcap
        rw [heq2] at h
        cases h
        exact ⟨i, hL2, le_refl i⟩
  · -- S4 scenario
    refine ⟨_, rfl, rfl, by decide⟩

end BdkChain

namespace BdkChain

theorem scan_txout_absorbed {K S O : Type} [DecidableEq K] [DecidableEq S] [DecidableEq O]
    (st1 : KeychainTxOutIndex K S O) (op : O) (txout : TxOutS S)
    (habs : ∀ k i, st1.inner.spk_indices txout.script_pubkey = some (k, i) →
      st1.inner.outputs txout.script_pubkey op = true ∧
      st1.inner.unused (k, i) = false ∧
      (st1.keychains k).isSome = true ∧
      i < (st1.last_revealed k).elim 0 (· + 1)) :
    st1.scan_txout op txout = some (DerivationAdditions.empty, st1) := by
  rcases hm : st1.inner.spk_indices txout.script_pubkey with _ | ki
  · simp only [KeychainTxOutIndex.scan_txout, SpkTxOutIndex.scan_txout, hm]
  · obtain ⟨ho, hu, hk, hi⟩ := habs ki.1 ki.2 (by rw [hm])
    obtain ⟨d, hd⟩ := Option.isSome_iff_exists.mp hk
    have h1 : (fun s o => if s = txout.script_pubkey ∧ o = op then true
        else st1.inner.outputs s o) = st1.inner.outputs := by
      funext s o
      by_cases hc : s = txout.script_pubkey ∧ o = op
      · rw [if_pos hc, hc.1, hc.2]
        exact ho.symm
      · rw [if_neg hc]
    have h2 : (fun j => if j = ki then false else st1.inner.unused j) = st1.inner.unused := by
      funext j
      by_cases hc : j = ki
      · rw [if_pos hc, hc]
        exact hu.symm
      · rw [if_neg hc]
    simp only [KeychainTxOutIndex.scan_txout, SpkTxOutIndex.scan_txout, hm, h1, h2]
    exact reveal_to_early st1 ki.1 ki.2 d hd (by
      rcases hwB : d.has_wildcard with _ | _
      · simp only [hwB, Bool.false_eq_true, if_false]
        omega
      · simpa [hwB] using hi)

theorem scan_absorbed {K S O : Type} [DecidableEq K] [DecidableEq S] [DecidableEq O]
    (st1 : KeychainTxOutIndex K S O) (batch : List (O × TxOutS S))
    (habs : ∀ q ∈ batch, st1.scan_txout q.1 q.2 = some (DerivationAdditions.empty, st1)) :
    st1.scan batch = some (DerivationAdditions.empty, st1) := by
  unfold KeychainTxOutIndex.scan
  have key : ∀ (l : List (O × TxOutS S)),
      (∀ q ∈ l, st1.scan_txout q.1 q.2 = some (DerivationAdditions.empty, st1)) →
      ∀ adds : DerivationAdditions K,
        l.foldl (fun acc q => acc.bind fun r =>
          (r.2.scan_txout q.1 q.2).map fun r' => (r.1.append r'.1, r'.2))
          (some (adds, st1)) = some (adds, st1) := by
    intro l
    induction l with
    | nil => intro _ adds; rfl
    | cons q qs ih =>
      intro hall adds
      simp only [List.foldl_cons, Option.some_bind]
      rw [hall q (List.mem_cons_self _ _)]
      simp only [Option.map_some']
      rw [DerivationAdditions.append_empty]
      exact ih (fun r hr => hall r (List.mem_cons_of_mem _ hr)) adds
  exact key batch habs DerivationAdditions.empty

/-- C8 (corrected): a second `scan` of the same batch is the identity and
contributes nothing to the additions-sum, provided every txout of the batch
whose script pubkey is indexed after the first scan was already absorbed by
it (outpoint recorded, entry marked used, index at most `last_revealed`). -/
theorem scan_idempotent_spec {K S O : Type} [DecidableEq K] [DecidableEq S] [DecidableEq O]
    (st : KeychainTxOutIndex K S O) (batch : List (O × TxOutS S))
    (adds1 : DerivationAdditions K) (st1 : KeychainTxOutIndex K S O)
    (_h1 : st.scan batch = some (adds1, st1))
    (habs : ∀ q ∈ batch, ∀ k i,
      st1.inner.spk_indices q.2.script_pubkey = some (k, i) →
      st1.inner.outputs q.2.script_pubkey q.1 = true ∧
      st1.inner.unused (k, i) = false ∧
      (st1.keychains k).isSome = true ∧
      i < (st1.last_revealed k).elim 0 (· + 1)) :
    st1.scan batch = some (DerivationAdditions.empty, st1) ∧
    adds1.append DerivationAdditions.empty = adds1 :=
  ⟨scan_absorbed st1 batch
      (fun q hq => scan_txout_absorbed st1 q.1 q.2 (habs q hq)),
    DerivationAdditions.append_empty adds1⟩

/-- The batch of the S4 scenario: one outpoint whose script is at index 3. -/
def s4batch : List (ℕ × TxOutS ℕ) := [(0, ⟨3⟩)]

/-- Witness for C8 on the S4 index and batch. -/
theorem scan_idempotent_spec_witness :
    (((stS4.scan s4batch).getD (DerivationAdditions.empty, stS4)).2).scan s4batch =
      some (DerivationAdditions.empty,
        ((stS4.scan s4batch).getD (DerivationAdditions.empty, stS4)).2) ∧
    (((stS4.scan s4batch).getD (DerivationAdditions.empty, stS4)).1).append
        DerivationAdditions.empty =
      ((stS4.scan s4batch).getD (DerivationAdditions.empty, stS4)).1 := by
  refine scan_idempotent_spec stS4 s4batch
    ((stS4.scan s4batch).getD (DerivationAdditions.empty, stS4)).1
    ((stS4.scan s4batch).getD (DerivationAdditions.empty, stS4)).2
    (by rfl) ?_
  intro q hq k i hki
  rw [show s4batch = [((0 : ℕ), (⟨3⟩ : TxOutS ℕ))] from rfl, List.mem_singleton] at hq
  subst hq
  have h2 : some ((), (3 : ℕ)) = some (k, i) := by rw [← hki]; decide
  cases h2
  refine ⟨by decide, by decide, by decide, by decide⟩

/-- The order-sensitive batch: the txout at the not-yet-stored index 6 comes
before the txout at index 3 that reveals it. -/
def cexBatch : List (ℕ × TxOutS ℕ) := [(1, ⟨6⟩), (2, ⟨3⟩)]

/-- Counterexample for C8 as stated: scanning `cexBatch` once from the S4
index leaves `last_revealed = 3`, but scanning it a second time advances
`last_revealed` to 6 and returns the non-empty additions `{(): 6}` - `scan`
is not idempotent for every batch. -/
theorem scan_idempotent_cex :
    ((stS4.scan cexBatch).bind fun p => (p.2.scan cexBatch).map fun q =>
      (p.2.last_revealed (), q.2.last_revealed (), q.1 ())) =
      some (some 3, some 6, some 6) := by
  decide

end BdkChain

namespace BdkChain

/-- Witness for C5 on the S4 index: the outpoint 7 carrying the script at
index 3 is recorded and `last_revealed` lands at (at least) 3. -/
theorem scan_txout_spec_witness :
    (stS4.scan_txout 7 ⟨3⟩ =
      KeychainTxOutIndex.reveal_to
        { stS4 with inner := (stS4.inner.scan_txout 7 ⟨3⟩).2 } () 3) ∧
    (∃ r, ((stS4.scan_txout 7 ⟨3⟩).getD
        (DerivationAdditions.empty, stS4)).2.last_revealed () = some r ∧ 3 ≤ r) := by
  have main := scan_txout_spec stS4 7 ⟨3⟩ () 3 descW (by decide) rfl rfl
    (Or.inl rfl) (by decide)
  refine ⟨main.1, ?_⟩
  obtain ⟨st', heq, -, -⟩ := main.2.2
  have hr := main.2.1 _ _ heq
  rw [heq]
  exact hr

end BdkChain

namespace CoinSelect

/-- The combined (effective, absolute) value of a selector's selection - the
`current_value` of a BnB state carrying that selection. -/
def selValue (sel : CoinSelector) : CombinedValue :=
  ⟨∑ i ∈ sel.selected, (value_fn sel (sel.candidate i)).eff_value,
    ∑ i ∈ sel.selected, (value_fn sel (sel.candidate i)).abs_value⟩

theorem geb_true_iff (a b : CombinedValue) :
    a.geb b = true ↔ b.eff_value ≤ a.eff_value ∧ b.abs_value ≤ a.abs_value := by
  unfold CombinedValue.geb
  rw [combinedValue_pcmp_eq]
  split_ifs with h1 h2
  · exact iff_of_true rfl ⟨le_of_eq h1.1.symm, le_of_eq h1.2.symm⟩
  · exact iff_of_true rfl h2
  · exact iff_of_false (by simp) h2

theorem gtb_false_iff (a b : CombinedValue) :
    a.gtb b = false ↔ a = b ∨ a.eff_value < b.eff_value ∨ a.abs_value < b.abs_value := by
  unfold CombinedValue.gtb
  rw [combinedValue_pcmp_eq]
  split_ifs with h1 h2
  · refine iff_of_true rfl (Or.inl ?_)
    cases a; cases b
    simp_all
  · refine iff_of_false (by simp) ?_
    rintro (rfl | h | h)
    · exact h1 ⟨rfl, rfl⟩
    · exact absurd h2.1 (not_le.mpr h)
    · exact absurd h2.2 (not_le.mpr h)
  · refine iff_of_true rfl (Or.inr ?_)
    by_contra hc
    push_neg at hc
    exact h2 ⟨hc.1, hc.2⟩

/-- Pool indices are never among the pre-selected ones of the input. -/
def PoolDisj (cs : CoinSelector) (p : BnbParams) : Prop :=
  ∀ q ∈ p.pool, q.1 ∉ cs.selected

/-- The search invariant of the BnB iterator relative to the input selector
`cs`: the selection carries `cs`'s candidates and options, keeps every
pre-selected index, and selects otherwise only pool indices. -/
def BnbInv (cs : CoinSelector) (p : BnbParams) (st : BnbState) : Prop :=
  st.selection.candidates = cs.candidates ∧
  st.selection.opts = cs.opts ∧
  cs.selected ⊆ st.selection.selected ∧
  ∀ i ∈ st.selection.selected, i ∈ cs.selected ∨ ∃ c, (i, c) ∈ p.pool

/-- What holds of a selection yielded as `Some` by the iterator: the invariant
facts plus the two bound tests of the solution branch of `check`. -/
def GoodSel (cs : CoinSelector) (p : BnbParams) (sel : CoinSelector) : Prop :=
  sel.candidates = cs.candidates ∧
  sel.opts = cs.opts ∧
  cs.selected ⊆ sel.selected ∧
  (∀ i ∈ sel.selected, i ∈ cs.selected ∨ ∃ c, (i, c) ∈ p.pool) ∧
  (selValue sel).geb p.target_value = true ∧
  (selValue sel).gtb p.upper_bound = false

theorem backtrackScan_found (p : BnbParams) (sel : CoinSelector) :
    ∀ (k : ℕ) (rem : CombinedValue) (j index : ℕ) (rem' : CombinedValue),
      backtrackScan p sel k rem = some (some (j, index), rem') →
      index ∈ sel.selected ∧ ∃ c, (index, c) ∈ p.pool := by
  intro k
  induction k with
  | zero =>
    intro rem j index rem' h
    unfold backtrackScan at h
    simp at h
  | succ n ih =>
    intro rem j index rem' h
    unfold backtrackScan at h
    rcases hp : p.pool[n]? with _ | ⟨qi, qc⟩
    · rw [hp] at h
      exact absurd h (by simp)
    · rw [hp] at h
      dsimp only [] at h
      by_cases hsel : qi ∈ sel.selected
      · rw [if_pos hsel] at h
        injection h with h1
        injection h1 with h2 h3
        injection h2 with h4
        injection h4 with h5 h6
        subst h6
        exact ⟨hsel, qc, List.getElem?_mem hp⟩
      · rw [if_neg hsel] at h
        exact ih _ _ _ _ h

theorem check_sol (p : BnbParams) (st : BnbState)
    (h : (check p st).1 = true) :
    st.current_value.geb p.target_value = true ∧
    st.current_value.gtb p.upper_bound = false := by
  simp only [check] at h
  split_ifs at h with h1 h2 h3 h4 <;> simp_all

theorem bnbBest_some (p : BnbParams) (st : BnbState) (sel : CoinSelector)
    (h : (bnbBest p st).2 = some sel) :
    sel = st.selection ∧ (check p st).1 = true := by
  simp only [bnbBest] at h
  split_ifs at h with h1 h2 <;>
    first
      | exact ⟨(Option.some.inj h).symm, h1⟩
      | exact absurd h (by simp)

theorem bnbNext_yield_some (p : BnbParams) (st st' : BnbState) (sel : CoinSelector)
    (h : bnbNext p st = .yield (some sel) st') :
    sel = st.selection ∧ (check p st).1 = true := by
  simp only [bnbNext] at h
  split at h
  · exact absurd h (by simp)
  · split at h
    · split at h
      · exact absurd h (by simp)
      · injection h with h1 h2
        exact bnbBest_some p st sel h1
      · split at h
        · injection h with h1 h2
          exact bnbBest_some p st sel h1
        · exact absurd h (by simp)
    · split at h
      · exact absurd h (by simp)
      · split at h
        · injection h with h1 h2
          exact bnbBest_some p st sel h1
        · split at h
          · exact absurd h (by simp)
          · injection h with h1 h2
            exact bnbBest_some p st sel h1

theorem bnbNext_inv (cs : CoinSelector) (p : BnbParams) (st st' : BnbState)
    (item : Option CoinSelector) (hdisj : PoolDisj cs p) (hinv : BnbInv cs p st)
    (h : bnbNext p st = .yield item st') : BnbInv cs p st' := by
  obtain ⟨hc, ho, hsub, hmem⟩ := hinv
  simp only [bnbNext] at h
  split at h
  · exact absurd h (by simp)
  · split at h
    · split at h
      · exact absurd h (by simp)
      · rename_i lastp rem heq
        injection h with h1 h2
        subst h2
        obtain ⟨hselmem, c, hcpool⟩ :=
          backtrackScan_found p st.selection st.pos st.remaining_value lastp.1 lastp.2 rem heq
        have hnotin : lastp.2 ∉ cs.selected := hdisj (lastp.2, c) hcpool
        refine ⟨hc, ho, ?_, ?_⟩
        · intro j hj
          exact Finset.mem_erase.mpr ⟨fun hje => hnotin (hje ▸ hj), hsub hj⟩
        · intro i hi
          exact hmem i (Finset.mem_of_mem_erase hi)
      · split at h
        · injection h with h1 h2
          subst h2
          exact ⟨hc, ho, hsub, hmem⟩
        · exact absurd h (by simp)
    · split at h
      · exact absurd h (by simp)
      · rename_i qi qc heq
        split at h
        · injection h with h1 h2
          subst h2
          exact ⟨hc, ho, hsub, hmem⟩
        · split at h
          · exact absurd h (by simp)
          · rename_i sel' heq2
            injection h with h1 h2
            subst h2
            simp only [CoinSelector.select] at heq2
            split at heq2
            · have hsel' := Option.some.inj heq2
              subst hsel'
              refine ⟨hc, ho, ?_, ?_⟩
              · intro j hj
                exact Finset.mem_insert_of_mem (hsub hj)
              · intro i hi
                rcases Finset.mem_insert.mp hi with hi | hi
                · subst hi
                  exact Or.inr ⟨qc, List.getElem?_mem heq⟩
                · exact hmem i hi
            · exact absurd heq2 (by simp)

end CoinSelect

namespace CoinSelect

theorem bnbRun_sound (cs : CoinSelector) (p : BnbParams) (hdisj : PoolDisj cs p) :
    ∀ (fuel : ℕ) (st : BnbState) (items : List (Option CoinSelector)),
      BnbInv cs p st → bnbRun p fuel st = some items →
      ∀ sel : CoinSelector, some sel ∈ items → GoodSel cs p sel := by
  intro fuel
  induction fuel with
  | zero =>
    intro st items hinv hrun sel hm
    cases Option.some.inj hrun
    simp at hm
  | succ n ih =>
    intro st items hinv hrun sel hm
    unfold bnbRun at hrun
    rcases hstep : bnbNext p st with _ | _ | ⟨item, st2⟩
    · rw [hstep] at hrun
      exact absurd hrun (by simp)
    · rw [hstep] at hrun
      cases Option.some.inj hrun
      simp at hm
    · rw [hstep] at hrun
      obtain ⟨items2, hrun2, hcons⟩ := Option.map_eq_some'.mp hrun
      subst hcons
      rcases List.mem_cons.mp hm with hm1 | hm1
    
      · rw [← hm1] at hstep
        obtain ⟨hseleq, hsol⟩ := bnbNext_yield_some p st st2 sel hstep
        obtain ⟨hgeb, hgtb⟩ := check_sol p st hsol
        subst hseleq
        obtain ⟨hc, ho, hsub, hmem⟩ := hinv
        exact ⟨hc, ho, hsub, hmem, hgeb, hgtb⟩
      · exact ih st2 items2 (bnbNext_inv cs p st st2 item hdisj hinv hstep) hrun2 sel hm1

theorem reduceKeepSome_mem (l : List (Option CoinSelector)) (r : Option CoinSelector)
    (h : reduceKeepSome l = some r) : r ∈ l := by
  unfold reduceKeepSome at h
  rcases l with _ | ⟨x, xs⟩
  · exact absurd h (by simp)
  · cases Option.some.inj h
    have key : ∀ (ys : List (Option CoinSelector)) (a : Option CoinSelector),
        ys.foldl (fun b c => if c.isSome then c else b) a ∈ a :: ys := by
      intro ys
      induction ys with
      | nil => intro a; simp
      | cons y ys ih =>
        intro a
        rw [List.foldl_cons]
        rcases List.mem_cons.mp (ih (if y.isSome then y else a)) with h2 | h2
        · by_cases hy : y.isSome
          · rw [if_pos hy] at h2 ⊢
            rw [h2]
            simp
          · rw [if_neg hy] at h2 ⊢
            rw [h2]
            exact List.mem_cons_self _ _
        · exact List.mem_cons_of_mem _ (List.mem_cons_of_mem _ h2)
    exact key xs x

/-- The sorted, filtered candidate pool built at the top of
`coin_select_bnb`. -/
def bnbPool (cs : CoinSelector) : List (ℕ × WeightedValue) :=
  sortUnstableBy
    (fun a b => decide (b.2.effective_value cs.opts ≤ a.2.effective_value cs.opts))
    ((cs.candidates.enum.filter
      (fun q => !decide (q.1 ∈ cs.selected))).filter
      (fun q => decide (0 < q.2.effective_value cs.opts)))

/-- The `BnbParams` instantiated by `coin_select_bnb` for the input `cs`. -/
def bnbParamsOf (cs : CoinSelector) : BnbParams :=
  { pool := bnbPool cs
    target_value := (CombinedValue.bounds cs).1
    upper_bound := (CombinedValue.bounds cs).2
    metric_increases := cs.opts.target_feerate.gt cs.opts.long_term_feerate_or }

theorem coin_select_bnb_eq (max_tries : ℕ) (cs : CoinSelector) :
    coin_select_bnb max_tries cs =
      match BnbState.new (bnbParamsOf cs) cs with
      | none => some none
      | some st =>
        match bnbRun (bnbParamsOf cs) max_tries st with
        | none => none
        | some items =>
          some (match reduceKeepSome items with | none => none | some r => r) := rfl

theorem bnbParamsOf_disj (cs : CoinSelector) : PoolDisj cs (bnbParamsOf cs) := by
  intro q hq
  have hq1 := (mem_sortUnstableBy _ _ _).mp hq
  have hq2 := (List.mem_filter.mp hq1).1
  have hq3 := (List.mem_filter.mp hq2).2
  simpa using hq3

/-- C3 (corrected): when `coin_select_bnb` returns `Some(sel)`, the selection
keeps the input's candidates and options, preserves every pre-selected
candidate, newly selects only candidates of strictly positive effective
value, and its combined (effective, absolute) value lies at or above `lower`
in the product order; the upper bound, however, is enforced only through the
source's strict `>` test: the value equals `upper` or is strictly below it in
at least one coordinate - the product inequality `value ≤ upper` can fail. -/
theorem coin_select_bnb_sound (max_tries : ℕ) (cs sel : CoinSelector)
    (h : coin_select_bnb max_tries cs = some (some sel)) :
    sel.candidates = cs.candidates ∧ sel.opts = cs.opts ∧
    cs.selected ⊆ sel.selected ∧
    (∀ i ∈ sel.selected, i ∉ cs.selected →
      0 < (sel.candidate i).effective_value cs.opts) ∧
    ((CombinedValue.bounds cs).1.eff_value ≤ (selValue sel).eff_value ∧
      (CombinedValue.bounds cs).1.abs_value ≤ (selValue sel).abs_value) ∧
    (selValue sel = (CombinedValue.bounds cs).2 ∨
      (selValue sel).eff_value < (CombinedValue.bounds cs).2.eff_value ∨
      (selValue sel).abs_value < (CombinedValue.bounds cs).2.abs_value) := by
  rw [coin_select_bnb_eq] at h
  split at h
  · exact absurd h (by simp)
  · rename_i st0 hnew
    split at h
    · exact absurd h (by simp)
    · rename_i items hrun
      have hred := Option.some.inj h
      split at hred
      · exact absurd hred (by simp)
      · rename_i r hredeq
        subst hred
        have hmem := reduceKeepSome_mem items (some sel) hredeq
        simp only [BnbState.new] at hnew
        split at hnew
        · exact absurd hnew (by simp)
        · cases Option.some.inj hnew
          obtain ⟨hc, ho, hsub, hpool, hgeb, hgtb⟩ :=
            bnbRun_sound cs (bnbParamsOf cs) (bnbParamsOf_disj cs) max_tries _ items
              ⟨rfl, rfl, subset_rfl, fun i hi => Or.inl hi⟩ hrun sel hmem
          refine ⟨hc, ho, hsub, ?_, ?_, ?_⟩
          · intro i hi hnot
            rcases hpool i hi with hin | ⟨c, hcpool⟩
            · exact absurd hin hnot
            · have hc1 := (mem_sortUnstableBy _ _ _).mp hcpool
              have hc2 := List.mem_filter.mp hc1
              have hpos : 0 < c.effective_value cs.opts := by simpa using hc2.2
              have hc4 := List.mem_enum_iff_getElem?.mp (List.mem_filter.mp hc2.1).1
              have hcand : sel.candidate i = c := by
                unfold CoinSelector.candidate
                rw [hc, List.getD_eq_getElem?_getD, hc4]
                rfl
              rw [hcand]
              exact hpos
          · exact (geb_true_iff _ _).mp hgeb
          · exact (gtb_false_iff _ _).mp hgtb

/-- The options of the bound-violation scenario: zero target feerate,
long-term feerate 1, `spend_drain_weight` 10, target 100. -/
def cexOpts : CoinSelectorOpt :=
  { target_value := 100, max_extra_target := 0, target_feerate := ⟨0, 1⟩,
    long_term_feerate := some ⟨1, 1⟩, min_absolute_fee := 0, base_weight := 0,
    drain_weight := 0, spend_drain_weight := 10, min_drain_value := 0 }

/-- The input selector of the scenario: one candidate of value 101, nothing
pre-selected. -/
def cexSel : CoinSelector := ⟨[⟨101, 1, 1, false⟩], ∅, cexOpts⟩

/-- The selector returned by BnB on the scenario: the candidate is selected. -/
def cexResult : CoinSelector := ⟨[⟨101, 1, 1, false⟩], {0}, cexOpts⟩

/-- Witness for the amended C3 on the concrete scenario: the binder-free
conjuncts of `coin_select_bnb_sound` at `cexSel`. -/
theorem coin_select_bnb_sound_witness :
    cexResult.candidates = cexSel.candidates ∧
    cexSel.selected ⊆ cexResult.selected ∧
    ((CombinedValue.bounds cexSel).1.eff_value ≤ (selValue cexResult).eff_value ∧
      (CombinedValue.bounds cexSel).1.abs_value ≤ (selValue cexResult).abs_value) ∧
    (selValue cexResult = (CombinedValue.bounds cexSel).2 ∨
      (selValue cexResult).eff_value < (CombinedValue.bounds cexSel).2.eff_value ∨
      (selValue cexResult).abs_value < (CombinedValue.bounds cexSel).2.abs_value) := by
  have hx : coin_select_bnb 10 cexSel = some (some cexResult) := by decide
  have main := coin_select_bnb_sound 10 cexSel cexResult hx
  exact ⟨main.1, main.2.2.1, main.2.2.2.2.1, main.2.2.2.2.2⟩

/-- Counterexample for C3 as stated: on the scenario of `cexSel` (zero target
feerate, long-term feerate 1, `spend_drain_weight` 10, one candidate of value
101 against target 100), BnB returns the selection `{0}` whose absolute value
101 exceeds the absolute coordinate 100 of the upper bound, so the claimed
product inequality `value ≤ upper` does not hold for the returned selection. -/
theorem coin_select_bnb_bound_cex :
    coin_select_bnb 10 cexSel = some (some cexResult) ∧
    (CombinedValue.bounds cexSel).2.abs_value < (selValue cexResult).abs_value := by
  decide

end CoinSelect
